import Mathlib

/-!
Verification of the VIC cipher pipeline
(`src/c/src/classical/substitution/composite/vic.c` together with
`src/c/src/classical/substitution/polygraphic/monoalphabetic_squares.c`).

The C code works on NUL-terminated byte strings; squares and checkerboards
are passed around as strings whose rows are separated by a newline byte.
The shallow embedding works one level up, at the character level:

* a text, keyword or alphabet is a `List Char` (the C counts "usable
  characters" with `utf8_strlen`, which is exactly the length of the
  character list);
* a Polybius square or a straddling checkerboard is a `List (List Char)`,
  the list of its rows (the newline-separated lines of the C string);
* a C function that reports failure through a `-1` status code is embedded
  as an `Option`; `none` also stands for the two operations on which the C
  has undefined behaviour (`i % 0` on an empty numeric key, and a negative
  array index from a key character below '0'), which have no defined
  result to model;
* the fixed 1024-byte output buffers of the C are not modelled: all inputs
  considered fit them and truncation is a representation artefact.

Integer arithmetic from the C (`int`) is mirrored with `Int` and `Int.tmod`
(C's truncating `%`); indices that are provably non-negative are then read
back with `Int.toNat`.
-/

/-- DEFAULT_VIC_ALPHABET from vic.h: 26 letters followed by 10 digits. -/
def defaultVicAlphabet : List Char := "ABCDEFGHIJKLMNOPQRSTUVWXYZ0123456789".toList

/-- TURKISH_VIC_ALPHABET from vic.h: 29 Turkish letters and 7 digits. -/
def turkishVicAlphabet : List Char := "ABCÇDEFGĞHIİJKLMNOÖPRSŞTUÜVYZ0123456".toList

/-- VIC_LETTERS from vic.h: the six line labels used for Polybius coordinates. -/
def vicLetters : List Char := "ADFGVX".toList

/-- C `tolower` restricted to ASCII, as applied byte-wise by the keyword loops. -/
def toLowerC (c : Char) : Char :=
  if 'A' ≤ c ∧ c ≤ 'Z' then Char.ofNat (c.toNat + 32) else c

/-- C `toupper` restricted to ASCII (used by monoalphabetic_squares.c). -/
def toUpperC (c : Char) : Char :=
  if 'a' ≤ c ∧ c ≤ 'z' then Char.ofNat (c.toNat - 32) else c

/-- C `isalpha` on ASCII characters. -/
def isAlphaAscii (c : Char) : Bool :=
  ('A' ≤ c ∧ c ≤ 'Z') ∨ ('a' ≤ c ∧ c ≤ 'z')

/-- C `isdigit` on ASCII characters. -/
def isDigitC (c : Char) : Bool :=
  '0' ≤ c ∧ c ≤ '9'

/-- Row-major first occurrence of a character in a square or checkerboard,
mirroring `find_char_in_square` of vic.c (which walks the newline-separated
string, resetting the column counter at each newline) and the inlined
first-match double loop of `letters_to_digits`. -/
def rowMajorFind : List (List Char) → Char → Option (Nat × Nat)
  | [], _ => none
  | row :: rest, ch =>
    match row.findIdx? (fun c => c == ch) with
    | some c => some (0, c)
    | none => (rowMajorFind rest ch).map (fun p => (p.1 + 1, p.2))

/-- Character of a square at a (row, column) position, mirroring
`get_char_from_square` of vic.c. -/
def getFromSquare (sq : List (List Char)) (r c : Nat) : Option Char :=
  (sq.get? r).bind (fun row => row.get? c)

/-- One step of the keyword-merge loops of `create_keyword_polybius_square` /
`create_straddling_checkerboard` (vic.c): a lower-cased keyword character is
appended when the table is not yet full (`unique_pos < cap`, the loop guard of
the C), the character occurs in the alphabet (`strchr`), and it has not been
seen before (the `seen` array, i.e. membership in the accumulated list). -/
def addKeywordChar (alph : List Char) (cap : Nat) (st : List Char) (c0 : Char) : List Char :=
  let c := toLowerC c0
  if st.length < cap ∧ c ∈ alph ∧ c ∉ st then st ++ [c] else st

/-- One step of the second merge loop: an alphabet character is appended when
the table is not full and the character is unseen. -/
def addAlphabetChar (cap : Nat) (st : List Char) (c : Char) : List Char :=
  if st.length < cap ∧ c ∉ st then st ++ [c] else st

/-- The `keyword_unique` array built by the two loops of
`create_keyword_polybius_square` (cap 36) and `create_straddling_checkerboard`
(cap 30): deduplicated lower-cased keyword characters that occur in the
alphabet, followed by the remaining alphabet characters, stopping at `cap`. -/
def mergedAlphabet (kw alph : List Char) (cap : Nat) : List Char :=
  alph.foldl (addAlphabetChar cap) (kw.foldl (addKeywordChar alph cap) [])

/-- Lay a character sequence out row-major as `rows` rows of width `w`,
mirroring the grid-formatting loops (`result[pos++] = ...` guarded by
`char_index < unique_pos`); a short sequence simply yields short rows. -/
def chunkRows (l : List Char) (w rows : Nat) : List (List Char) :=
  (List.range rows).map (fun r => (l.drop (r * w)).take w)

/-- create_standard_polybius_square (vic.c): first 36 alphabet characters,
row-major in a 6x6 grid; fails when the alphabet has fewer than 36 characters. -/
def createStandardPolybiusSquare (alph : List Char) : Option (List (List Char)) :=
  if alph.length < 36 then none else some (chunkRows alph 6 6)

/-- create_keyword_polybius_square (vic.c): keyword-merged alphabet laid out
row-major in a 6x6 grid; fails when the alphabet has fewer than 36 characters. -/
def createKeywordPolybiusSquare (kw alph : List Char) : Option (List (List Char)) :=
  if alph.length < 36 then none else some (chunkRows (mergedAlphabet kw alph 36) 6 6)

/-- create_straddling_checkerboard (vic.c): keyword-merged alphabet laid out
as 3 rows of 10; fails when the alphabet has fewer than 30 characters. -/
def createStraddlingCheckerboard (kw alph : List Char) : Option (List (List Char)) :=
  if alph.length < 30 then none else some (chunkRows (mergedAlphabet kw alph 30) 10 3)

/-- Numeric parameters for the monoalphabetic square types. The C receives
them as a JSON-ish string and parses them with `strstr`/`atoi`, with defaults
shift = 3, a = 1, b = 0; the parsing is plumbing and is not modelled. -/
structure MonoParams where
  shift : Int
  a : Int
  b : Int

/-- create_caesar_alphabet (monoalphabetic_squares.c): upper-case the
alphabet, keep the ASCII letters, shift each by `shift` modulo 26 (C `%` is
truncating, but the result is only read after adding back 'A', so the value
is the byte the C stores). -/
def createCaesarAlphabet (alph : List Char) (shift : Int) : List Char :=
  ((alph.map toUpperC).filter isAlphaAscii).map
    (fun c => Char.ofNat ((((c.toNat : Int) - 65 + shift).tmod 26 + 65).toNat))

/-- create_atbash_alphabet (monoalphabetic_squares.c): 'Z' - (c - 'A') on the
ASCII letters of the upper-cased alphabet. -/
def createAtbashAlphabet (alph : List Char) : List Char :=
  ((alph.map toUpperC).filter isAlphaAscii).map
    (fun c => Char.ofNat (90 - (c.toNat - 65)))

/-- The gcd validity check of create_affine_alphabet. The C runs a plain
Euclid loop on `int`s; for a non-positive `a` it returns a value that is
never 1 for the ≥ 36-character alphabets used here, so it is embedded as
a positivity test plus `Int.gcd`. -/
def affineGcdOk (a : Int) (len : Nat) : Bool :=
  0 < a ∧ Int.gcd a len = 1

/-- create_affine_alphabet (monoalphabetic_squares.c): E(x) = (a*x + b) mod m
applied to the letter positions, indexing back into the full upper-cased
alphabet; fails when gcd(a, m) ≠ 1. A negative `a*x + b` would be an
out-of-bounds read in the C; `toNat` stands in for that unreachable case. -/
def createAffineAlphabet (alph : List Char) (a b : Int) : Option (List Char) :=
  let up := alph.map toUpperC
  let len := up.length
  if affineGcdOk a len then
    some ((up.filter isAlphaAscii).map
      (fun c => up.getD ((a * ((c.toNat : Int) - 65) + b).tmod len).toNat 'A'))
  else none

/-- remove_duplicates (monoalphabetic_squares.c): upper-cased ASCII letters of
the keyword, first occurrence kept. -/
def removeDuplicatesMono (kw : List Char) : List Char :=
  kw.foldl (fun st c0 =>
    let c := toUpperC c0
    if isAlphaAscii c ∧ c ∉ st then st ++ [c] else st) []

/-- create_keyword_alphabet (monoalphabetic_squares.c): deduplicated keyword
letters, then the upper-cased alphabet characters not among them (the second
loop never updates `seen`, so duplicates inside the alphabet survive). -/
def createKeywordAlphabet (alph kw : List Char) : List Char :=
  let up := alph.map toUpperC
  let kwU := removeDuplicatesMono kw
  kwU ++ up.filter (fun c => c ∉ kwU)

/-- The plain 26-letter alphabet literal that alphabet_to_square compares
against to decide square size and I=J merging. -/
def plainEnglishAlphabet : List Char := "ABCDEFGHIJKLMNOPQRSTUVWXYZ".toList

/-- The 29-letter Turkish alphabet literal of alphabet_to_square. -/
def plainTurkishAlphabet : List Char := "ABCÇDEFGĞHIİJKLMNOÖPRSŞTUÜVYZ".toList

/-- alphabet_to_square (monoalphabetic_squares.c): choose 5x5 or 6x6 from the
original alphabet, merge J into I for the plain English alphabet, pad a short
transformed alphabet by repeating its first character, and chunk row-major. -/
def alphabetToSquare (transformed orig : List Char) : List (List Char) :=
  let origUp := orig.map toUpperC
  let t1 := if origUp = plainEnglishAlphabet
    then transformed.map (fun c => if c = 'J' then 'I' else c)
    else transformed
  let size := if origUp = plainEnglishAlphabet then 5
    else if origUp = plainTurkishAlphabet then 6
    else if t1.length ≤ 25 then 5 else 6
  let padded := t1 ++ List.replicate (size * size - t1.length) (t1.getD 0 'A')
  chunkRows padded size size

/-- create_monoalphabetic_square (monoalphabetic_squares.c): dispatch on the
square type; the keyword branch always falls back to the literal "SECRET". -/
def createMonoalphabeticSquare (squareType : String) (alph : List Char) (mp : MonoParams) :
    Option (List (List Char)) :=
  if squareType = "caesar" then
    some (alphabetToSquare (createCaesarAlphabet alph mp.shift) alph)
  else if squareType = "atbash" then
    some (alphabetToSquare (createAtbashAlphabet alph) alph)
  else if squareType = "affine" then
    (createAffineAlphabet alph mp.a mp.b).map (fun t => alphabetToSquare t alph)
  else if squareType = "keyword" then
    some (alphabetToSquare (createKeywordAlphabet alph "SECRET".toList) alph)
  else none

/-- Alphabet selection shared by the vic.c entry points: an explicit alphabet
wins, otherwise the language picks the Turkish or default alphabet. -/
def chooseAlphabet (alphabet : Option (List Char)) (language : String) : List Char :=
  match alphabet with
  | some a => a
  | none => if language = "turkish" then turkishVicAlphabet else defaultVicAlphabet

/-- vic_produce_polybius_square (vic.c): check the 36-character minimum first,
then dispatch on the square type; a missing keyword falls back to "SECRET";
an unrecognized type fails. -/
def vicProducePolybiusSquare (squareType : String) (keyword : Option (List Char))
    (alphabet : Option (List Char)) (mp : MonoParams) (language : String) :
    Option (List (List Char)) :=
  let ua := chooseAlphabet alphabet language
  if ua.length < 36 then none
  else if squareType = "standard" then createStandardPolybiusSquare ua
  else if squareType = "caesar" ∨ squareType = "atbash" ∨ squareType = "affine" then
    createMonoalphabeticSquare squareType ua mp
  else if squareType = "keyword" then
    createKeywordPolybiusSquare (keyword.getD "SECRET".toList) ua
  else none

/-- vic_produce_checkerboard (vic.c). -/
def vicProduceCheckerboard (keyword : List Char) (alphabet : Option (List Char))
    (language : String) : Option (List (List Char)) :=
  createStraddlingCheckerboard keyword (chooseAlphabet alphabet language)

/-- substitute_to_polybius (vic.c): each character found in the square emits
the two VIC line labels of its row and column; characters that are not found
are skipped with no error. -/
def substituteToPolybius (text : List Char) (sq : List (List Char)) : List Char :=
  match text with
  | [] => []
  | c :: rest =>
    match rowMajorFind sq c with
    | some rc => vicLetters.getD rc.1 'A' :: vicLetters.getD rc.2 'A' ::
        substituteToPolybius rest sq
    | none => substituteToPolybius rest sq

/-- Position of a character in VIC_LETTERS (the `strchr(vic_chars, c)` and
label-scan loops of vic.c; the labels are pairwise distinct, so first and
last match coincide). -/
def vicIndexOf (c : Char) : Option Nat :=
  vicLetters.findIdx? (fun x => x == c)

/-- pairs_to_digits (vic.c): each VIC label becomes the digit of its index;
other characters are dropped. -/
def pairsToDigits (pairs : List Char) : List Char :=
  pairs.filterMap (fun c => (vicIndexOf c).map (fun i => Char.ofNat (48 + i)))

/-- digits_to_pairs (vic.c): each digit below 6 becomes the VIC label of that
index; other characters are dropped. -/
def digitsToPairs (digits : List Char) : List Char :=
  digits.filterMap (fun c =>
    if isDigitC c ∧ c.toNat - 48 < 6 then some (vicLetters.getD (c.toNat - 48) 'A') else none)

/-- substitute_from_polybius (vic.c): consume the label stream two at a time,
decode row and column labels, and read the square; pairs whose labels or
position do not resolve are skipped. -/
def substituteFromPolybius (pairs : List Char) (sq : List (List Char)) : List Char :=
  match pairs with
  | a :: b :: rest =>
    (match vicIndexOf a, vicIndexOf b with
     | some r, some c =>
       (match getFromSquare sq r c with
        | some ch => ch :: substituteFromPolybius rest sq
        | none => substituteFromPolybius rest sq)
     | _, _ => substituteFromPolybius rest sq)
  | _ => []

/-- Loop of digits_to_letters (vic.c), recursing on the remaining digits
(the C's `i + 1 < strlen(digits)` lookahead is the two-element pattern): try
the two-digit lookup (a row value in [1, row count) and a column value inside
that row), otherwise fall back to the one-digit row-0 lookup, which advances
by one even when its bounds check fails. Row and column values are `int`s in
the C, so they are compared as `Int` before being used as indices. -/
def digitsToLettersGo (board : List (List Char)) : List Char → List Char
  | [] => []
  | [d] =>
    if 0 ≤ (d.toNat : Int) - 48 ∧ (d.toNat : Int) - 48 < ((board.getD 0 []).length : Int) then
      [(board.getD 0 []).getD (d.toNat - 48) 'A']
    else []
  | d :: c :: rest =>
    let row : Int := (d.toNat : Int) - 48
    let col : Int := (c.toNat : Int) - 48
    if 1 ≤ row ∧ row < (board.length : Int) ∧
        0 ≤ col ∧ col < ((board.getD row.toNat []).length : Int) then
      (board.getD row.toNat []).getD col.toNat 'A' :: digitsToLettersGo board rest
    else if 0 ≤ row ∧ row < ((board.getD 0 []).length : Int) then
      (board.getD 0 []).getD row.toNat 'A' :: digitsToLettersGo board (c :: rest)
    else
      digitsToLettersGo board (c :: rest)

/-- digits_to_letters (vic.c): greedy left-to-right decode of a digit stream
through the checkerboard. -/
def digitsToLetters (digits : List Char) (board : List (List Char)) : List Char :=
  digitsToLettersGo board digits

/-- letters_to_digits (vic.c): each letter is looked up row-major in the
checkerboard; row 0 emits one digit, rows 1-2 emit row and column digits;
letters not in the board are skipped. -/
def lettersToDigits (letters : List Char) (board : List (List Char)) : List Char :=
  match letters with
  | [] => []
  | c :: rest =>
    match rowMajorFind board c with
    | some (0, col) => Char.ofNat (48 + col) :: lettersToDigits rest board
    | some (row, col) => Char.ofNat (48 + row) :: Char.ofNat (48 + col) ::
        lettersToDigits rest board
    | none => lettersToDigits rest board

/-- One comparison/swap of the key-order sort in columnar_transposition
(vic.c): positions i and j of the order array are exchanged when the key
character at position i sorts strictly above the one at position j. -/
def swapStep (key : List Char) (i : Nat) (ord : List Nat) (j : Nat) : List Nat :=
  if key.getD (ord.getD i 0) 'A' > key.getD (ord.getD j 0) 'A' then
    (ord.set i (ord.getD j 0)).set j (ord.getD i 0)
  else ord

/-- The key order array of columnar_transposition: indices 0..len-1, run
through the double exchange-sort loop of the C. -/
def keyOrder (key : List Char) : List Nat :=
  (List.range (key.length - 1)).foldl
    (fun ord i => (List.range' (i + 1) (key.length - (i + 1))).foldl (swapStep key i) ord)
    (List.range key.length)

/-- Row count of the transposition grid: ceiling division, as in the C. -/
def ctRows (n cols : Nat) : Nat := (n + cols - 1) / cols

/-- Column `c` of the encryption grid: the characters of the text at indices
r*cols + c (the C stores text[i] at grid[i % cols][i / cols] and reads back
only indices below the text length). -/
def colChars (text : List Char) (cols rows c : Nat) : List Char :=
  (List.range rows).filterMap (fun r => text.get? (r * cols + c))

/-- Encryption direction of columnar_transposition: concatenate the grid
columns in key order. -/
def ctEncryptList (text key : List Char) : List Char :=
  ((keyOrder key).map (colChars text key.length (ctRows text.length key.length))).flatten

/-- Column length computed by the decryption direction: with a ragged last
row, the first n % cols columns are full. -/
def colLen (n cols rows c : Nat) : Nat :=
  if n % cols = 0 then rows else if c < n % cols then rows else rows - 1

/-- Sequential split of a character stream into segments of given lengths
(the decrypt distribution loop of the C). -/
def splitSegs : List Char → List Nat → List (List Char)
  | _, [] => []
  | xs, l :: ls => xs.take l :: splitSegs (xs.drop l) ls

/-- Decryption direction of columnar_transposition: distribute the text into
columns in key order, with the column lengths implied by the key arithmetic,
then read the grid row-major. -/
def ctDecryptList (text key : List Char) : List Char :=
  let cols := key.length
  let n := text.length
  let rows := ctRows n cols
  let ord := keyOrder key
  let segs := splitSegs text (ord.map (colLen n cols rows))
  let grid := fun c => (((ord.zip segs).find? (fun p => p.1 == c)).map Prod.snd).getD []
  ((List.range rows).map (fun r => (List.range cols).filterMap (fun c => (grid c).get? r))).flatten

/-- columnar_transposition (vic.c): fails on an empty key or empty text,
otherwise runs the requested direction. -/
def columnarTransposition (text key : List Char) (enc : Bool) : Option (List Char) :=
  if key.length = 0 ∨ text.length = 0 then none
  else some (if enc then ctEncryptList text key else ctDecryptList text key)

/-- The multi-pass transposition loops of vic_encrypt / vic_decrypt: apply
the same direction `n` times, aborting on the first failure. -/
def transpositionPasses (key : List Char) (enc : Bool) : Nat → List Char → Option (List Char)
  | 0, t => some t
  | n + 1, t => (columnarTransposition t key enc).bind (transpositionPasses key enc n)

/-- Loop body of numeric_addition (vic.c). Characters outside the alphabet
are copied unchanged. An empty key would be `i % 0` in the C (undefined);
a negative shifted index would be an out-of-bounds read; both are `none`. -/
def numericAdditionGo (key alph : List Char) (enc : Bool) : List Char → Nat → Option (List Char)
  | [], _ => some []
  | c :: rest, i =>
    if c ∈ alph then
      if key.length = 0 then none
      else
        let ci : Int := (alph.indexOf c : Nat)
        let kd : Int := ((key.getD (i % key.length) '0').toNat : Int) - 48
        let n : Int := (alph.length : Int)
        let ni : Int := if enc then (ci + kd).tmod n else (ci - kd + n).tmod n
        if ni < 0 then none
        else (numericAdditionGo key alph enc rest (i + 1)).map
          (fun out => alph.getD ni.toNat 'A' :: out)
    else (numericAdditionGo key alph enc rest (i + 1)).map (fun out => c :: out)

/-- numeric_addition (vic.c): static repeating-key modular addition. -/
def numericAddition (text key alph : List Char) (enc : Bool) : Option (List Char) :=
  numericAdditionGo key alph enc text 0

/-- Loop body shared by chain_addition_encrypt and chain_addition_decrypt
(vic.c): the shift digit is read at buffer position i % key_len, then the
buffer is shifted left by one and '0' + new_index is appended; characters
outside the alphabet are copied and leave the buffer and index untouched
(the C increments `i` for them too, note `i` counts text positions). -/
def chainAdditionGo (alph : List Char) (enc : Bool) :
    List Char → Nat → List Char → Option (List Char)
  | [], _, _ => some []
  | c :: rest, i, buf =>
    if c ∈ alph then
      if buf.length = 0 then none
      else
        let ci : Int := (alph.indexOf c : Nat)
        let kd : Int := ((buf.getD (i % buf.length) '0').toNat : Int) - 48
        let n : Int := (alph.length : Int)
        let ni : Int := if enc then (ci + kd).tmod n else (ci - kd + n).tmod n
        if ni < 0 then none
        else (chainAdditionGo alph enc rest (i + 1)
            (buf.drop 1 ++ [Char.ofNat (48 + ni.toNat)])).map
          (fun out => alph.getD ni.toNat 'A' :: out)
    else (chainAdditionGo alph enc rest (i + 1) buf).map (fun out => c :: out)

/-- chain_addition_encrypt (vic.c). -/
def chainAdditionEncrypt (text key alph : List Char) : Option (List Char) :=
  chainAdditionGo alph true text 0 key

/-- chain_addition_decrypt (vic.c). -/
def chainAdditionDecrypt (text key alph : List Char) : Option (List Char) :=
  chainAdditionGo alph false text 0 key

/-- vic_encrypt (vic.c): square, substitution, fractionation, checkerboard,
transposition passes, then static or chain numeric addition. -/
def vicEncrypt (plaintext pbKey cbKey trKey numKey : List Char) (squareType : String)
    (alphabet : Option (List Char)) (language : String) (mp : MonoParams)
    (passes : Nat) (useChain : Bool) : Option (List Char) :=
  let ua := chooseAlphabet alphabet language
  (vicProducePolybiusSquare squareType (some pbKey) alphabet mp language).bind (fun sq =>
    let pairs := substituteToPolybius plaintext sq
    let digits := pairsToDigits pairs
    (vicProduceCheckerboard cbKey alphabet language).bind (fun cb =>
      let letters := digitsToLetters digits cb
      (transpositionPasses trKey true passes letters).bind (fun transposed =>
        if useChain then chainAdditionEncrypt transposed numKey ua
        else numericAddition transposed numKey ua true)))

/-- vic_decrypt (vic.c): the stages of vic_encrypt, inverted and run in the
reverse order. -/
def vicDecrypt (ciphertext pbKey cbKey trKey numKey : List Char) (squareType : String)
    (alphabet : Option (List Char)) (language : String) (mp : MonoParams)
    (passes : Nat) (useChain : Bool) : Option (List Char) :=
  let ua := chooseAlphabet alphabet language
  (if useChain then chainAdditionDecrypt ciphertext numKey ua
   else numericAddition ciphertext numKey ua false).bind (fun letters =>
    (transpositionPasses trKey false passes letters).bind (fun transposed =>
      (vicProduceCheckerboard cbKey alphabet language).bind (fun cb =>
        let digits := lettersToDigits transposed cb
        let pairs := digitsToPairs digits
        (vicProducePolybiusSquare squareType (some pbKey) alphabet mp language).map (fun sq =>
          substituteFromPolybius pairs sq))))

/-- Greedy checkerboard decode as the specification words it: a two-digit
lookup (row prefix 1 or 2 plus column digit) is attempted first and consumes
two digits; otherwise the single digit is looked up in row 0 and one digit is
consumed. Stated for digit streams, where the one-digit row-0 lookup always
succeeds on a full 10-slot row. -/
def greedyCheckerboardParse (board : List (List Char)) : List Char → List Char
  | [] => []
  | [d] => [(board.getD 0 []).getD (d.toNat - 48) 'A']
  | d :: c :: rest =>
    if d = '1' ∨ d = '2' then
      (board.getD (d.toNat - 48) []).getD (c.toNat - 48) 'A' ::
        greedyCheckerboardParse board rest
    else
      (board.getD 0 []).getD (d.toNat - 48) 'A' :: greedyCheckerboardParse board (c :: rest)

/-- First-occurrence deduplication, written as a structural recursion (used
as the specification-side description of the keyword merge). -/
def firstDedup : List Char → List Char
  | [] => []
  | c :: rest => c :: (firstDedup rest).filter (fun x => x ≠ c)

/-- Specification-side description of the checkerboard contents: lower-cased
keyword characters that occur in the alphabet, in first-occurrence keyword
order, then the remaining alphabet characters, truncated to 30. -/
def specMergedCheckerboard (kw alph : List Char) : List Char :=
  (firstDedup (((kw.map toLowerC).filter (fun c => decide (c ∈ alph))) ++ alph)).take 30

/-- The checkerboard as claim C5 words it, with the keyword letters
deduplicated in alphabet order (ties to the claim's "deduplicating the
keyword's letters in alphabet order"): the keyword part is the set of
lower-cased keyword letters listed in the order of the alphabet. -/
def specCheckerboardClaimed (kw alph : List Char) : Option (List (List Char)) :=
  if alph.length < 30 then none
  else
    let kwPart := alph.filter (fun c => decide (c ∈ kw.map toLowerC))
    let m := (kwPart ++ alph.filter (fun c => decide (c ∉ kwPart))).take 30
    some [m.take 10, (m.drop 10).take 10, (m.drop 20).take 10]

/-- Lower-case variant of the default alphabet, used for concrete inputs
whose keyword letters must survive the C's `tolower`. -/
def lowercaseVicAlphabet : List Char := "abcdefghijklmnopqrstuvwxyz0123456789".toList

/-- The parameter defaults the C parser falls back to. -/
def defaultMonoParams : MonoParams := ⟨3, 1, 0⟩

/-- Auxiliary form of the outer loop of the exchange sort of
columnar_transposition (vic.c): the first k outer iterations applied to the
initial order array. -/
def outerFoldAux (key : List Char) (k : Nat) : List Nat :=
  (List.range k).foldl
    (fun ord i => (List.range' (i + 1) (key.length - (i + 1))).foldl (swapStep key i) ord)
    (List.range key.length)

set_option maxRecDepth 8000

/-- C9: with an explicitly supplied alphabet of fewer than 36 characters the
Polybius builder fails for every square type (the length check precedes the
dispatch); it also fails for any unrecognized square type; and with fewer
than 30 characters the checkerboard builder fails. No branch truncates. -/
theorem vic_builders_fail_on_short_alphabet :
    (∀ (squareType : String) (kw : Option (List Char)) (alph : List Char)
        (mp : MonoParams) (lang : String), alph.length < 36 →
      vicProducePolybiusSquare squareType kw (some alph) mp lang = none)
    ∧ (∀ (squareType : String) (kw : Option (List Char)) (alphabet : Option (List Char))
        (mp : MonoParams) (lang : String),
        squareType ∉ ["standard", "caesar", "atbash", "affine", "keyword"] →
      vicProducePolybiusSquare squareType kw alphabet mp lang = none)
    ∧ (∀ (kw alph : List Char) (lang : String), alph.length < 30 →
      vicProduceCheckerboard kw (some alph) lang = none) := by
  refine ⟨?_, ?_, ?_⟩
  · intro squareType kw alph mp lang h
    simp [vicProducePolybiusSquare, chooseAlphabet, h]
  · intro squareType kw alphabet mp lang h
    simp only [List.mem_cons, List.mem_singleton, not_or] at h
    obtain ⟨h1, h2, h3, h4, h5, -⟩ := h
    simp [vicProducePolybiusSquare, h1, h2, h3, h4, h5]
  · intro kw alph lang h
    simp [vicProduceCheckerboard, chooseAlphabet, createStraddlingCheckerboard, h]

/-- Witness for C9: a 5-character alphabet is refused by the square builder,
an unknown type "foo" is refused, and a 2-character alphabet is refused by
the checkerboard builder. -/
theorem vic_builders_fail_on_short_alphabet_witness :
    ("ABCDE".toList.length < 36
      ∧ vicProducePolybiusSquare "standard" none (some "ABCDE".toList)
          defaultMonoParams "english" = none)
    ∧ (("foo" : String) ∉ (["standard", "caesar", "atbash", "affine", "keyword"] : List String)
      ∧ vicProducePolybiusSquare "foo" none none defaultMonoParams "english" = none)
    ∧ ("AB".toList.length < 30
      ∧ vicProduceCheckerboard "k".toList (some "AB".toList) "english" = none) :=
  ⟨⟨by decide, vic_builders_fail_on_short_alphabet.1 _ _ _ _ _ (by decide)⟩,
   ⟨by decide, vic_builders_fail_on_short_alphabet.2.1 _ _ _ _ _ (by decide)⟩,
   ⟨by decide, vic_builders_fail_on_short_alphabet.2.2 _ _ _ (by decide)⟩⟩

/-- C10: with at least 36 usable characters, requesting a "keyword" square
with a missing (NULL) keyword succeeds and builds the square from the
default keyword "SECRET". -/
theorem vic_keyword_square_default_secret (alph : List Char) (mp : MonoParams)
    (lang : String) (h : 36 ≤ alph.length) :
    vicProducePolybiusSquare "keyword" none (some alph) mp lang =
      createKeywordPolybiusSquare "SECRET".toList alph
    ∧ (vicProducePolybiusSquare "keyword" none (some alph) mp lang).isSome := by
  have h36 : ¬ alph.length < 36 := by omega
  have he : vicProducePolybiusSquare "keyword" none (some alph) mp lang =
      createKeywordPolybiusSquare "SECRET".toList alph := by
    simp [vicProducePolybiusSquare, chooseAlphabet, h36, Option.getD]
  refine ⟨he, ?_⟩
  rw [he]
  simp [createKeywordPolybiusSquare, h36]

/-- Witness for C10: the default alphabet has 36 characters and the keyword
square is built from "SECRET" when no keyword is supplied. -/
theorem vic_keyword_square_default_secret_witness :
    36 ≤ defaultVicAlphabet.length
    ∧ (vicProducePolybiusSquare "keyword" none (some defaultVicAlphabet)
        defaultMonoParams "english" =
          createKeywordPolybiusSquare "SECRET".toList defaultVicAlphabet
      ∧ (vicProducePolybiusSquare "keyword" none (some defaultVicAlphabet)
        defaultMonoParams "english").isSome) :=
  ⟨by decide, vic_keyword_square_default_secret defaultVicAlphabet defaultMonoParams
    "english" (by decide)⟩

/-- C2 (code evaluated at the failing input): chain addition does not read
the leading buffer digit, and decryption does not invert encryption. With
key "12" on "ab", position 1 reads buffer slot 1 % 2 = 1, which after the
first left-shift holds the digit fed back from position 0 (giving "bc"),
not the leading '2' (which would give "bd"). With key "5" on "ab" the
encrypt buffer holds the ciphertext index digit while the decrypt buffer
holds the recovered-plaintext index digit, so the round trip returns "ag",
not "ab". -/
theorem chain_addition_diverges_from_spec :
    chainAdditionEncrypt "ab".toList "12".toList lowercaseVicAlphabet = some "bc".toList
    ∧ (chainAdditionEncrypt "ab".toList "5".toList lowercaseVicAlphabet).bind
        (fun c => chainAdditionDecrypt c "5".toList lowercaseVicAlphabet) = some "ag".toList
    ∧ ("ag".toList ≠ "ab".toList) := by
  decide

/-- C8 (code evaluated at the failing input): the numeric key addition stage
performs no key validation. The non-numeric key "a" is accepted in both
static and chain mode: the character's offset from '0' (49) is used as the
shift, and the stage succeeds with output "N" instead of failing with a
KeyError-style result. (With an empty key and non-empty input the C computes
`i % 0`, which is undefined behaviour, not a clean failure either.) -/
theorem numeric_addition_accepts_nonnumeric_key :
    numericAddition "A".toList "a".toList defaultVicAlphabet true = some "N".toList
    ∧ chainAdditionEncrypt "A".toList "a".toList defaultVicAlphabet = some "N".toList := by
  decide

/-- Counterexample for C1: the round trip fails everywhere outside static
mode with a standard or keyword square, an exactly-36-character alphabet and
a non-empty plaintext, on inputs that satisfy the preconditions of the
claim. (i) In chain-addition mode decrypting the encryption of "ab" yields
"cb5". (ii)-(iv) With the caesar, atbash and affine square types the
monoalphabetic transform keeps only the letters and pads the square with
duplicates, so the in-alphabet plaintext "A0" comes back as "A". (v) With a
37-character alphabet (at least 36, as section 4.1 allows) the 37th
character has no cell in the 6x6 square, so the plaintext "!" is silently
dropped and the encryption of the resulting empty stream fails. (vi) For
the empty plaintext encryption itself fails, so the round trip cannot
return it. -/
theorem vic_roundtrip_fails_outside_static_core :
    ((vicEncrypt "ab".toList "k".toList "k".toList "ab".toList "5".toList "standard"
      (some lowercaseVicAlphabet) "english" defaultMonoParams 1 true).bind (fun c =>
      vicDecrypt c "k".toList "k".toList "ab".toList "5".toList "standard"
        (some lowercaseVicAlphabet) "english" defaultMonoParams 1 true) = some "cb5".toList
    ∧ ("cb5".toList ≠ "ab".toList))
    ∧ ((vicEncrypt "A0".toList "K".toList "K".toList "AB".toList "5".toList "caesar"
      none "english" defaultMonoParams 1 false).bind (fun c =>
      vicDecrypt c "K".toList "K".toList "AB".toList "5".toList "caesar"
        none "english" defaultMonoParams 1 false) = some "A".toList
    ∧ ("A".toList ≠ "A0".toList))
    ∧ ((vicEncrypt "A0".toList "K".toList "K".toList "AB".toList "5".toList "atbash"
      none "english" defaultMonoParams 1 false).bind (fun c =>
      vicDecrypt c "K".toList "K".toList "AB".toList "5".toList "atbash"
        none "english" defaultMonoParams 1 false) = some "A".toList)
    ∧ ((vicEncrypt "A0".toList "K".toList "K".toList "AB".toList "5".toList "affine"
      none "english" defaultMonoParams 1 false).bind (fun c =>
      vicDecrypt c "K".toList "K".toList "AB".toList "5".toList "affine"
        none "english" defaultMonoParams 1 false) = some "A".toList)
    ∧ ((vicEncrypt "!".toList "K".toList "K".toList "AB".toList "5".toList "standard"
      (some "ABCDEFGHIJKLMNOPQRSTUVWXYZ0123456789!".toList) "english"
      defaultMonoParams 1 false).bind (fun c =>
      vicDecrypt c "K".toList "K".toList "AB".toList "5".toList "standard"
        (some "ABCDEFGHIJKLMNOPQRSTUVWXYZ0123456789!".toList) "english"
        defaultMonoParams 1 false) = none)
    ∧ (vicEncrypt [] "K".toList "K".toList "AB".toList "5".toList "standard"
      none "english" defaultMonoParams 1 false = none) := by
  decide

/-- Counterexample for C7: a character absent from the square ('?') does not
make the stage or the pipeline fail with a LookupError; it is silently
skipped, and the pipeline succeeds with the same (partial) output as if the
character had not been there. -/
theorem vic_absent_char_skipped_not_error :
    vicEncrypt "A?".toList "K".toList "K".toList "BA".toList "12".toList "standard"
      none "english" defaultMonoParams 1 false =
      vicEncrypt "A".toList "K".toList "K".toList "BA".toList "12".toList "standard"
        none "english" defaultMonoParams 1 false
    ∧ (vicEncrypt "A?".toList "K".toList "K".toList "BA".toList "12".toList "standard"
      none "english" defaultMonoParams 1 false).isSome := by
  decide

/-- Counterexample for C5: the checkerboard is not built by deduplicating the
keyword's letters in alphabet order. For keyword "ba" the built board starts
with row "bacdefghij" (keyword first-occurrence order), while the claimed
alphabet-order deduplication would start with "abcdefghij". -/
theorem checkerboard_not_alphabet_order :
    createStraddlingCheckerboard "ba".toList lowercaseVicAlphabet ≠
      specCheckerboardClaimed "ba".toList lowercaseVicAlphabet := by
  decide

/-- Counterexample for C4: the column read order is not a stable ascending
sort. For key "bba" the exchange sort yields [2, 1, 0]: the two equal 'b'
columns are read right-to-left, while a stable sort would keep them in
left-to-right order ([2, 0, 1]). -/
theorem key_order_not_stable_sort :
    keyOrder "bba".toList = [2, 1, 0]
    ∧ ¬ List.Pairwise (fun p q : Nat =>
        "bba".toList.getD p ' ' < "bba".toList.getD q ' '
        ∨ ("bba".toList.getD p ' ' = "bba".toList.getD q ' ' ∧ p < q))
        (keyOrder "bba".toList) := by
  decide

/-- C7 (amended): the substitution stage never fails; it silently skips
characters that are absent from the square (its output equals its output on
the input with the absent characters filtered away), and the emitted label
stream has length exactly twice the number of present input characters. -/
theorem substitute_to_polybius_length (text : List Char) (sq : List (List Char)) :
    (substituteToPolybius text sq).length =
      2 * text.countP (fun c => (rowMajorFind sq c).isSome) := by
  induction text with
  | nil => simp [substituteToPolybius]
  | cons c rest ih =>
    cases h : rowMajorFind sq c with
    | some rc =>
      simp [substituteToPolybius, h, ih, List.countP_cons]
      ring
    | none =>
      simp [substituteToPolybius, h, ih, List.countP_cons]

-- C5 machinery
theorem foldl_cap_take (P : List Char → Char → Prop) [inst : ∀ st c, Decidable (P st c)]
    (cap : Nat) :
    ∀ (l : List Char) (u : List Char),
      l.foldl (fun st c => if st.length < cap ∧ P st c then st ++ [c] else st) (u.take cap)
      = (l.foldl (fun st c => if P st c then st ++ [c] else st) u).take cap := by
  intro l
  induction l with
  | nil => intro u; rfl
  | cons c l ih =>
    intro u
    rw [List.foldl_cons, List.foldl_cons]
    by_cases hlt : u.length < cap
    · have htu : u.take cap = u := List.take_of_length_le (le_of_lt hlt)
      rw [htu]
      by_cases hp : P u c
      · have h1 : (if u.length < cap ∧ P u c then u ++ [c] else u) = u ++ [c] := by
          simp [hlt, hp]
        have h2 : (if P u c then u ++ [c] else u) = u ++ [c] := by simp [hp]
        rw [h1, h2]
        have h3 : (u ++ [c]).take cap = u ++ [c] := by
          refine List.take_of_length_le ?_
          simp only [List.length_append, List.length_singleton]
          omega
        calc List.foldl (fun st c => if st.length < cap ∧ P st c then st ++ [c] else st)
              (u ++ [c]) l
            = List.foldl (fun st c => if st.length < cap ∧ P st c then st ++ [c] else st)
              ((u ++ [c]).take cap) l := by rw [h3]
          _ = (List.foldl (fun st c => if P st c then st ++ [c] else st) (u ++ [c]) l).take
              cap := ih _
      · have h1 : (if u.length < cap ∧ P u c then u ++ [c] else u) = u := by simp [hp]
        have h2 : (if P u c then u ++ [c] else u) = u := by simp [hp]
        rw [h1, h2]
        calc List.foldl (fun st c => if st.length < cap ∧ P st c then st ++ [c] else st) u l
            = List.foldl (fun st c => if st.length < cap ∧ P st c then st ++ [c] else st)
              (u.take cap) l := by rw [htu]
          _ = (List.foldl (fun st c => if P st c then st ++ [c] else st) u l).take cap := ih _
    · have hge : cap ≤ u.length := Nat.le_of_not_lt hlt
      have hlen : (u.take cap).length = cap := by
        simp [List.length_take]
        omega
      have h1 : (if (u.take cap).length < cap ∧ P (u.take cap) c
          then u.take cap ++ [c] else u.take cap) = u.take cap := by
        rw [hlen]; simp
      rw [h1]
      have key : ∀ u' : List Char, u' = (if P u c then u ++ [c] else u) →
          u.take cap = u'.take cap := by
        intro u' hu'
        by_cases hp : P u c
        · rw [hu', if_pos hp, List.take_append_eq_append_take]
          have : cap - u.length = 0 := by omega
          rw [this]
          simp
        · rw [hu', if_neg hp]
      rw [key _ rfl, ih]

theorem foldl_addUnseen_eq (l : List Char) : ∀ acc : List Char,
    l.foldl (fun st c => if c ∉ st then st ++ [c] else st) acc
    = acc ++ (firstDedup l).filter (fun x => decide (x ∉ acc)) := by
  induction l with
  | nil => intro acc; simp [firstDedup]
  | cons c rest ih =>
    intro acc
    rw [List.foldl_cons]
    by_cases hc : c ∈ acc
    · rw [if_neg (by simpa using hc), ih acc]
      congr 1
      rw [firstDedup, List.filter_cons]
      have hdc : (decide (c ∉ acc)) = false := by simpa using hc
      rw [hdc]
      simp only [Bool.false_eq_true, if_neg, ite_false]
      rw [List.filter_filter]
      apply List.filter_congr
      intro x hx
      by_cases hxc : x = c
      · subst hxc
        simp [hc]
      · simp [hxc]
    · rw [if_pos (by simpa using hc), ih (acc ++ [c])]
      rw [firstDedup, List.filter_cons]
      have hdc : (decide (c ∉ acc)) = true := by simpa using hc
      rw [hdc]
      simp only [if_pos, ite_true]
      rw [List.append_assoc, List.singleton_append]
      congr 2
      rw [List.filter_filter]
      apply List.filter_congr
      intro x hx
      by_cases hxc : x = c
      · subst hxc
        simp
      · simp [hxc, List.mem_append]

theorem phase1_filter (alph : List Char) (l : List Char) : ∀ acc : List Char,
    l.foldl (fun st c => if c ∈ alph ∧ c ∉ st then st ++ [c] else st) acc
    = (l.filter (fun c => decide (c ∈ alph))).foldl
        (fun st c => if c ∉ st then st ++ [c] else st) acc := by
  induction l with
  | nil => intro acc; rfl
  | cons c rest ih =>
    intro acc
    rw [List.foldl_cons, List.filter_cons]
    by_cases hca : c ∈ alph
    · have hf : (decide (c ∈ alph)) = true := by simpa using hca
      rw [hf]
      simp only [ite_true]
      rw [List.foldl_cons]
      by_cases hcs : c ∈ acc
      · rw [if_neg (by simp [hcs]), if_neg (by simpa using hcs)]
        exact ih acc
      · rw [if_pos ⟨hca, hcs⟩, if_pos (by simpa using hcs)]
        exact ih _
    · have hf : (decide (c ∈ alph)) = false := by simpa using hca
      rw [hf]
      simp only [Bool.false_eq_true, ite_false]
      rw [if_neg (by simp [hca])]
      exact ih acc

theorem mergedAlphabet_eq_spec (kw alph : List Char) :
    mergedAlphabet kw alph 30 = specMergedCheckerboard kw alph := by
  have hcap1 := foldl_cap_take (fun st c => c ∈ alph ∧ c ∉ st) 30 (kw.map toLowerC) []
  have hcap2 := fun u => foldl_cap_take (fun st c => c ∉ st) 30 alph u
  have huncap1 := phase1_filter alph (kw.map toLowerC) []
  simp only [List.take_nil] at hcap1
  set kwF := (kw.map toLowerC).filter (fun c => decide (c ∈ alph)) with hkwF
  have hFD := foldl_addUnseen_eq (kwF ++ alph) []
  calc mergedAlphabet kw alph 30
      = alph.foldl (addAlphabetChar 30) (kw.foldl (addKeywordChar alph 30) []) := rfl
    _ = alph.foldl (addAlphabetChar 30)
        ((((kw.map toLowerC).foldl
          (fun st c => if c ∈ alph ∧ c ∉ st then st ++ [c] else st) []).take 30)) := by
        rw [show kw.foldl (addKeywordChar alph 30) []
            = (kw.map toLowerC).foldl
              (fun st c => if st.length < 30 ∧ (c ∈ alph ∧ c ∉ st) then st ++ [c] else st) []
          from by rw [List.foldl_map]; rfl]
        rw [hcap1]
    _ = ((alph.foldl (fun st c => if c ∉ st then st ++ [c] else st)
          ((kw.map toLowerC).foldl
            (fun st c => if c ∈ alph ∧ c ∉ st then st ++ [c] else st) [])).take 30) := by
        exact hcap2 _
    _ = ((kwF ++ alph).foldl (fun st c => if c ∉ st then st ++ [c] else st) []).take 30 := by
        rw [huncap1, ← List.foldl_append]
    _ = (firstDedup (kwF ++ alph)).take 30 := by rw [hFD]; simp
    _ = specMergedCheckerboard kw alph := rfl

theorem isDigitC_toNat {d : Char} (h : isDigitC d = true) :
    48 ≤ d.toNat ∧ d.toNat ≤ 57 := by
  simp only [isDigitC, decide_eq_true_eq] at h
  exact ⟨Char.le_def.mp h.1, Char.le_def.mp h.2⟩

theorem char_eq_of_toNat {a b : Char} (h : a.toNat = b.toNat) : a = b :=
  Char.ext (UInt32.ext h)

theorem digitsToLettersGo_eq_greedy (r0 r1 r2 : List Char)
    (h0 : r0.length = 10) (h1 : r1.length = 10) (h2 : r2.length = 10) :
    ∀ (n : Nat) (digits : List Char), digits.length ≤ n →
      (∀ d ∈ digits, isDigitC d = true) →
      digitsToLettersGo [r0, r1, r2] digits = greedyCheckerboardParse [r0, r1, r2] digits := by
  intro n
  induction n with
  | zero =>
    intro digits hlen _
    have : digits = [] := List.eq_nil_of_length_eq_zero (Nat.le_zero.mp hlen)
    subst this
    rfl
  | succ n ih =>
    intro digits hlen hd
    rcases digits with _ | ⟨d, _ | ⟨c, rest⟩⟩
    · rfl
    · have hdd := isDigitC_toNat (hd d (by simp))
      have hget0 : ([r0, r1, r2].getD 0 []) = r0 := rfl
      have hcond : (0 : Int) ≤ (d.toNat : Int) - 48 ∧
          (d.toNat : Int) - 48 < ((([r0, r1, r2].getD 0 []).length : Nat) : Int) := by
        rw [hget0, h0]
        omega
      have hval : ((d.toNat : Int) - 48).toNat = d.toNat - 48 := by omega
      simp only [digitsToLettersGo, greedyCheckerboardParse, hget0]
      rw [if_pos (by rw [hget0] at hcond; exact hcond)]
    · have hdd := isDigitC_toNat (hd d (by simp))
      have hcc := isDigitC_toNat (hd c (by simp))
      have hdrest : ∀ x ∈ rest, isDigitC x = true := fun x hx => hd x (by simp [hx])
      have hval : ((d.toNat : Int) - 48).toNat = d.toNat - 48 := by omega
      have hvalc : ((c.toNat : Int) - 48).toNat = c.toNat - 48 := by omega
      by_cases h12 : d.toNat = 49 ∨ d.toNat = 50
      · -- two-digit branch on both sides
        have hrowlen : (([r0, r1, r2].getD ((d.toNat : Int) - 48).toNat []).length) = 10 := by
          rcases h12 with h | h <;> rw [hval] <;> rw [h] <;> simpa using (by assumption)
        have hcond : (1 : Int) ≤ (d.toNat : Int) - 48 ∧
            (d.toNat : Int) - 48 < (([r0, r1, r2].length : Nat) : Int) ∧
            (0 : Int) ≤ (c.toNat : Int) - 48 ∧
            (c.toNat : Int) - 48 <
              ((([r0, r1, r2].getD ((d.toNat : Int) - 48).toNat []).length : Nat) : Int) := by
          rw [hrowlen]
          simp only [List.length_cons, List.length_nil]
          omega
        have hd12 : d = '1' ∨ d = '2' := by
          rcases h12 with h | h
          · exact Or.inl (char_eq_of_toNat (by rw [h]; rfl))
          · exact Or.inr (char_eq_of_toNat (by rw [h]; rfl))
        simp only [digitsToLettersGo, greedyCheckerboardParse]
        rw [if_pos hcond, if_pos hd12, hval, hvalc]
        congr 1
        exact ih rest (by simp only [List.length_cons] at hlen; omega) hdrest
      · -- one-digit branch on both sides
        have hncond : ¬ ((1 : Int) ≤ (d.toNat : Int) - 48 ∧
            (d.toNat : Int) - 48 < (([r0, r1, r2].length : Nat) : Int) ∧
            (0 : Int) ≤ (c.toNat : Int) - 48 ∧
            (c.toNat : Int) - 48 <
              ((([r0, r1, r2].getD ((d.toNat : Int) - 48).toNat []).length : Nat) : Int)) := by
          simp only [List.length_cons, List.length_nil]
          intro hc
          omega
        have hnd12 : ¬ (d = '1' ∨ d = '2') := by
          intro hc
          rcases hc with h | h <;> subst h <;> simp at h12
        have hcond1 : (0 : Int) ≤ (d.toNat : Int) - 48 ∧
            (d.toNat : Int) - 48 < ((([r0, r1, r2].getD 0 []).length : Nat) : Int) := by
          have hget0 : ([r0, r1, r2].getD 0 []) = r0 := rfl
          rw [hget0, h0]
          omega
        simp only [digitsToLettersGo, greedyCheckerboardParse]
        rw [if_neg hncond, if_neg hnd12, if_pos hcond1, hval]
        congr 1
        exact ih (c :: rest) (by simp only [List.length_cons] at hlen ⊢; omega)
          (fun x hx => hd x (List.mem_cons_of_mem d hx))

/-- C5 (amended): for an alphabet of at least 30 characters the checkerboard
is the keyword-merged sequence (lower-cased keyword characters occurring in
the alphabet in first-occurrence keyword order, then the remaining alphabet
characters, truncated to 30) laid out sequentially: characters 0-9 into
row 0, 10-19 into row 1, the rest into row 2. -/
theorem vic_checkerboard_layout (kw alph : List Char) (h : 30 ≤ alph.length) :
    createStraddlingCheckerboard kw alph =
      some [(specMergedCheckerboard kw alph).take 10,
            ((specMergedCheckerboard kw alph).drop 10).take 10,
            ((specMergedCheckerboard kw alph).drop 20).take 10] := by
  have h30 : ¬ alph.length < 30 := by omega
  have hr : List.range 3 = [0, 1, 2] := rfl
  rw [createStraddlingCheckerboard, if_neg h30, mergedAlphabet_eq_spec]
  simp [chunkRows, hr]

theorem vic_checkerboard_layout_witness :
    30 ≤ lowercaseVicAlphabet.length
    ∧ createStraddlingCheckerboard "keyword".toList lowercaseVicAlphabet =
        some [(specMergedCheckerboard "keyword".toList lowercaseVicAlphabet).take 10,
              ((specMergedCheckerboard "keyword".toList lowercaseVicAlphabet).drop 10).take 10,
              ((specMergedCheckerboard "keyword".toList lowercaseVicAlphabet).drop 20).take 10] :=
  ⟨by decide, vic_checkerboard_layout "keyword".toList lowercaseVicAlphabet (by decide)⟩

/-- C6: on a 3x10 checkerboard and a digit stream, digits_to_letters parses
greedily left to right: a two-digit lookup (row prefix 1 or 2 plus column
digit) is attempted first and consumes two digits, otherwise the single
digit is looked up in row 0 and one digit is consumed. -/
theorem digits_to_letters_is_greedy (digits : List Char) (board : List (List Char))
    (hb : board.length = 3) (hrows : ∀ row ∈ board, row.length = 10)
    (hd : ∀ d ∈ digits, isDigitC d = true) :
    digitsToLetters digits board = greedyCheckerboardParse board digits := by
  rcases List.length_eq_three.mp hb with ⟨r0, r1, r2, rfl⟩
  exact digitsToLettersGo_eq_greedy r0 r1 r2 (hrows r0 (by simp)) (hrows r1 (by simp))
    (hrows r2 (by simp)) digits.length digits le_rfl hd

theorem digits_to_letters_is_greedy_witness :
    (([("abcdefghij".toList), ("klmnopqrst".toList), ("uvwxyz0123".toList)] :
        List (List Char)).length = 3)
    ∧ (∀ d ∈ "120345".toList, isDigitC d = true)
    ∧ digitsToLetters "120345".toList
        [("abcdefghij".toList), ("klmnopqrst".toList), ("uvwxyz0123".toList)]
      = greedyCheckerboardParse
        [("abcdefghij".toList), ("klmnopqrst".toList), ("uvwxyz0123".toList)]
        "120345".toList :=
  ⟨by decide, by decide,
    digits_to_letters_is_greedy "120345".toList
      [("abcdefghij".toList), ("klmnopqrst".toList), ("uvwxyz0123".toList)]
      (by decide) (by decide) (by decide)⟩

theorem head_set_perm (t : List Nat) : ∀ (j a : Nat), j < t.length →
    (t.getD j 0 :: t.set j a).Perm (a :: t) := by
  induction t with
  | nil => intro j a h; simp at h
  | cons b t' ih =>
    intro j a h
    cases j with
    | zero =>
      simp only [List.getD_cons_zero, List.set_cons_zero]
      exact List.Perm.swap a b t'
    | succ j' =>
      have hj' : j' < t'.length := by simpa using h
      simp only [List.getD_cons_succ, List.set_cons_succ]
      have p1 : (t'.getD j' 0 :: b :: t'.set j' a).Perm (b :: t'.getD j' 0 :: t'.set j' a) :=
        List.Perm.swap b (t'.getD j' 0) _
      have p2 : (b :: (t'.getD j' 0 :: t'.set j' a)).Perm (b :: (a :: t')) :=
        (ih j' a hj').cons b
      have p3 : (b :: a :: t').Perm (a :: b :: t') := List.Perm.swap a b t'
      exact p1.trans (p2.trans p3)

theorem set_set_perm_lt (l : List Nat) : ∀ i j, i < j → j < l.length →
    ((l.set i (l.getD j 0)).set j (l.getD i 0)).Perm l := by
  induction l with
  | nil => intro i j hij hj; simp at hj
  | cons a t ih =>
    intro i j hij hj
    cases i with
    | zero =>
      cases j with
      | zero => omega
      | succ j' =>
        have hj' : j' < t.length := by simpa using hj
        simp only [List.getD_cons_succ, List.getD_cons_zero, List.set_cons_zero,
          List.set_cons_succ]
        exact head_set_perm t j' a hj'
    | succ i' =>
      cases j with
      | zero => omega
      | succ j' =>
        have h := ih i' j' (by omega) (by simpa using hj)
        simp only [List.getD_cons_succ, List.set_cons_succ]
        exact h.cons a

theorem set_swap_perm (l : List Nat) (i j : Nat) (hij : i ≠ j) (hi : i < l.length)
    (hj : j < l.length) :
    ((l.set i (l.getD j 0)).set j (l.getD i 0)).Perm l := by
  rcases Nat.lt_or_ge i j with h | h
  · exact set_set_perm_lt l i j h hj
  · have hji : j < i := by omega
    rw [List.set_comm _ _ _ hij]
    exact set_set_perm_lt l j i hji hi

theorem getD_set_ne (l : List Nat) (u p : Nat) (a : Nat) (h : u ≠ p) :
    (l.set u a).getD p 0 = l.getD p 0 := by
  simp [List.getD_eq_getElem?_getD, List.getElem?_set_ne h]

theorem getD_set_self (l : List Nat) (u : Nat) (a : Nat) (h : u < l.length) :
    (l.set u a).getD u 0 = a := by
  simp [List.getD_eq_getElem?_getD, List.getElem?_set_self h]

theorem getD_drop (l : List Nat) (i k : Nat) : (l.drop i).getD k 0 = l.getD (i + k) 0 := by
  simp [List.getD_eq_getElem?_getD, List.getElem?_drop]

theorem innerFold_spec (key : List Char) (n i : Nat) (hi : i < n) :
    ∀ (m : Nat), i + m < n → ∀ (ord : List Nat), ord.length = n →
      ((List.range' (i+1) m).foldl (swapStep key i) ord).length = n
      ∧ (∀ p, p < i ∨ i + m < p →
          ((List.range' (i+1) m).foldl (swapStep key i) ord).getD p 0 = ord.getD p 0)
      ∧ (((List.range' (i+1) m).foldl (swapStep key i) ord).drop i).Perm (ord.drop i)
      ∧ (∀ q, i ≤ q → q ≤ i + m →
          key.getD (((List.range' (i+1) m).foldl (swapStep key i) ord).getD i 0) 'A'
          ≤ key.getD (((List.range' (i+1) m).foldl (swapStep key i) ord).getD q 0) 'A') := by
  intro m
  induction m with
  | zero =>
    intro hmn ord hlen
    refine ⟨hlen, fun p _ => rfl, List.Perm.refl _, fun q h1 h2 => ?_⟩
    have : q = i := by omega
    subst this
    exact le_refl _
  | succ m ih =>
    intro hmn ord hlen
    obtain ⟨ihlen, ihout, ihperm, ihmin⟩ := ih (by omega) ord hlen
    set A := (List.range' (i+1) m).foldl (swapStep key i) ord with hA
    set j := i + 1 + m with hj
    have hij : i < j := by omega
    have hjn : j < n := by omega
    have hstep : (List.range' (i+1) (m+1)).foldl (swapStep key i) ord
        = swapStep key i A j := by
      rw [List.range'_concat, List.foldl_append]
      simp [hA, hj]
    rw [hstep]
    rw [swapStep]
    by_cases hgt : key.getD (A.getD i 0) 'A' > key.getD (A.getD j 0) 'A'
    · rw [if_pos hgt]
      set vj := A.getD j 0 with hvj
      set vi := A.getD i 0 with hvi
      set B := (A.set i vj).set j vi with hB
      have hjA : j < A.length := by omega
      have hiA : i < A.length := by omega
      have hBlen : B.length = n := by simp [hB, ihlen]
      have hBi : B.getD i 0 = vj := by
        rw [hB, getD_set_ne _ _ _ _ (by omega : j ≠ i), getD_set_self _ _ _ hiA]
      have hBj : B.getD j 0 = vi := by
        rw [hB, getD_set_self _ _ _ (by simpa using hjA)]
      have hBmid : ∀ p, p ≠ i → p ≠ j → B.getD p 0 = A.getD p 0 := by
        intro p hpi hpj
        rw [hB, getD_set_ne _ _ _ _ (fun h => hpj h.symm),
          getD_set_ne _ _ _ _ (fun h => hpi h.symm)]
      refine ⟨hBlen, ?_, ?_, ?_⟩
      · intro p hp
        have hpi : p ≠ i := by omega
        have hpj : p ≠ j := by omega
        rw [hBmid p hpi hpj]
        exact ihout p (by omega)
      · have hdropB : B.drop i = (((A.drop i).set 0 vj).set (j - i) vi) := by
          rw [hB, List.drop_set, if_neg (by omega : ¬ j < i), List.drop_set,
            if_neg (by omega : ¬ i < i), Nat.sub_self]
        have hvj' : vj = (A.drop i).getD (j - i) 0 := by
          rw [getD_drop, show i + (j - i) = j from by omega]
        have hvi' : vi = (A.drop i).getD 0 0 := by
          rw [getD_drop, Nat.add_zero]
        have hperm2 : (((A.drop i).set 0 vj).set (j - i) vi).Perm (A.drop i) := by
          rw [hvj', hvi']
          exact set_swap_perm (A.drop i) 0 (j - i) (by omega)
            (by rw [List.length_drop]; omega) (by rw [List.length_drop]; omega)
        rw [hdropB]
        exact hperm2.trans ihperm
      · intro q hq1 hq2
        rw [hBi]
        rcases Nat.eq_or_lt_of_le hq1 with hqi | hqi
        · subst hqi
          rw [hBi]
        · by_cases hqj : q = j
          · rw [hqj, hBj]
            exact le_of_lt hgt
          · have hqlt : q < j := by omega
            rw [hBmid q (by omega) hqj]
            exact le_trans (le_of_lt hgt) (ihmin q (by omega) (by omega))
    · rw [if_neg hgt]
      refine ⟨ihlen, ?_, ihperm, ?_⟩
      · intro p hp
        exact ihout p (by omega)
      · intro q hq1 hq2
        rcases Nat.lt_or_ge q (i + m + 1) with hq | hq
        · exact ihmin q hq1 (by omega)
        · have : q = j := by omega
          rw [this]
          exact le_of_not_lt hgt

theorem take_eq_of_getD (l l' : List Nat) (k : Nat) (hk : k ≤ l.length)
    (hk' : k ≤ l'.length) (h : ∀ p, p < k → l.getD p 0 = l'.getD p 0) :
    l.take k = l'.take k := by
  apply List.ext_getElem?
  intro p
  rw [List.getElem?_take, List.getElem?_take]
  rcases Nat.lt_or_ge p k with hp | hp
  · rw [if_pos hp, if_pos hp]
    have hpl : p < l.length := by omega
    have hpl' : p < l'.length := by omega
    rw [List.getElem?_eq_getElem hpl, List.getElem?_eq_getElem hpl']
    have hgd := h p hp
    rw [List.getD_eq_getElem l 0 hpl, List.getD_eq_getElem l' 0 hpl'] at hgd
    rw [hgd]
  · rw [if_neg (by omega), if_neg (by omega)]

theorem outerFold_spec (key : List Char) :
    ∀ (k : Nat), k ≤ key.length - 1 →
      (outerFoldAux key k).length = key.length
      ∧ (outerFoldAux key k).Perm (List.range key.length)
      ∧ (∀ p q, p < q → q < k →
          key.getD ((outerFoldAux key k).getD p 0) 'A'
            ≤ key.getD ((outerFoldAux key k).getD q 0) 'A')
      ∧ (∀ p, p < k → ∀ v ∈ (outerFoldAux key k).drop k,
          key.getD ((outerFoldAux key k).getD p 0) 'A' ≤ key.getD v 'A') := by
  intro k
  induction k with
  | zero =>
    intro _
    exact ⟨by simp [outerFoldAux], List.Perm.refl _,
      fun p q _ hq => by omega, fun p hp => by omega⟩
  | succ k ih =>
    intro hk1
    have hk : k ≤ key.length - 1 := by omega
    have hkn : k < key.length := by omega
    obtain ⟨ihlen, ihperm, ihS1, ihS2⟩ := ih hk
    have hstep : outerFoldAux key (k + 1)
        = (List.range' (k + 1) (key.length - (k + 1))).foldl (swapStep key k)
            (outerFoldAux key k) := by
      rw [outerFoldAux, List.range_succ, List.foldl_append]
      rfl
    obtain ⟨jlen, juntouched, jdrop, jmin⟩ :=
      innerFold_spec key key.length k hkn (key.length - (k + 1)) (by omega)
        (outerFoldAux key k) ihlen
    rw [← hstep] at jlen juntouched jdrop jmin
    have hkm : k + (key.length - (k + 1)) = key.length - 1 := by omega
    rw [hkm] at juntouched jmin
    refine ⟨jlen, ?_, ?_, ?_⟩
    · have htake : (outerFoldAux key (k + 1)).take k = (outerFoldAux key k).take k :=
        take_eq_of_getD _ _ k (by omega) (by omega)
          (fun p hp => juntouched p (Or.inl hp))
      have hsplit : (outerFoldAux key (k + 1)).Perm (outerFoldAux key k) := by
        rw [← List.take_append_drop k (outerFoldAux key (k + 1)),
          ← List.take_append_drop k (outerFoldAux key k), htake]
        exact List.Perm.append_left _ jdrop
      exact hsplit.trans ihperm
    · intro p q hpq hqk1
      rcases Nat.lt_or_ge q k with hq | hq
      · rw [juntouched p (Or.inl (by omega)), juntouched q (Or.inl hq)]
        exact ihS1 p q hpq hq
      · have hqk : q = k := by omega
        subst hqk
        have hkl : q < (outerFoldAux key (q + 1)).length := by omega
        have hmem : (outerFoldAux key (q + 1)).getD q 0 ∈ (outerFoldAux key (q + 1)).drop q := by
          rw [List.drop_eq_getElem_cons hkl, List.getD_eq_getElem _ 0 hkl]
          exact List.mem_cons_self _ _
        have hmem2 : (outerFoldAux key (q + 1)).getD q 0 ∈ (outerFoldAux key q).drop q :=
          (jdrop.mem_iff).mp hmem
        rw [juntouched p (Or.inl (by omega))]
        exact ihS2 p (by omega) _ hmem2
    · intro p hp v hv
      rcases Nat.lt_or_ge p k with hpk | hpk
      · have hkl : k < (outerFoldAux key (k + 1)).length := by omega
        have hv' : v ∈ (outerFoldAux key (k + 1)).drop k := by
          rw [List.drop_eq_getElem_cons hkl]
          exact List.mem_cons_of_mem _ hv
        have hvF : v ∈ (outerFoldAux key k).drop k := (jdrop.mem_iff).mp hv'
        rw [juntouched p (Or.inl hpk)]
        exact ihS2 p hpk v hvF
      · have hpk' : p = k := by omega
        subst hpk'
        obtain ⟨t, ht⟩ := List.mem_iff_getElem?.mp hv
        rw [List.getElem?_drop] at ht
        obtain ⟨hlt, hvv⟩ := List.getElem?_eq_some_iff.mp ht
        have hgd : (outerFoldAux key (p + 1)).getD (p + 1 + t) 0 = v := by
          rw [List.getD_eq_getElem _ _ hlt, hvv]
        rw [← hgd]
        exact jmin (p + 1 + t) (by omega) (by omega)

/-- C4 (amended): the column read order of columnar_transposition is a
permutation of the column indices 0..len-1 that is ascending in the key's
characters (the exchange sort sorts correctly, but is not stable on ties). -/
theorem key_order_sorted_perm (key : List Char) :
    (keyOrder key).Perm (List.range key.length)
    ∧ List.Pairwise (fun p q => key.getD p 'A' ≤ key.getD q 'A') (keyOrder key) := by
  have hko : keyOrder key = outerFoldAux key (key.length - 1) := rfl
  obtain ⟨hlen, hperm, hS1, hS2⟩ := outerFold_spec key (key.length - 1) le_rfl
  rw [hko]
  refine ⟨hperm, ?_⟩
  rw [List.pairwise_iff_getElem]
  intro a b ha hb hab
  have hga : (outerFoldAux key (key.length - 1)).getD a 0 =
      (outerFoldAux key (key.length - 1))[a] := List.getD_eq_getElem _ 0 ha
  have hgb : (outerFoldAux key (key.length - 1)).getD b 0 =
      (outerFoldAux key (key.length - 1))[b] := List.getD_eq_getElem _ 0 hb
  rw [← hga, ← hgb]
  rcases Nat.lt_or_ge b (key.length - 1) with hblt | hbge
  · exact hS1 a b hab hblt
  · have hb' : b = key.length - 1 := by omega
    have ha' : a < key.length - 1 := by omega
    subst hb'
    have hkl : key.length - 1 < (outerFoldAux key (key.length - 1)).length := by omega
    have hmem : (outerFoldAux key (key.length - 1)).getD (key.length - 1) 0
        ∈ (outerFoldAux key (key.length - 1)).drop (key.length - 1) := by
      rw [List.drop_eq_getElem_cons hkl, List.getD_eq_getElem _ 0 hkl]
      exact List.mem_cons_self _ _
    exact hS2 a ha' _ hmem

theorem get?_isSome_iff (l : List Char) (i : Nat) : (l.get? i).isSome ↔ i < l.length := by
  rcases Nat.lt_or_ge i l.length with h | h
  · simp [List.get?_eq_getElem?, List.getElem?_eq_getElem h, h]
  · simp only [List.get?_eq_getElem?, List.getElem?_eq_none h, Option.isSome_none,
      Bool.false_eq_true, false_iff]
    omega

theorem filterMap_range_get? {α : Type} (m : Nat) (g : Nat → Option α)
    (hmono : ∀ i j, i ≤ j → j < m → (g j).isSome → (g i).isSome) (r : Nat) :
    ((List.range m).filterMap g).get? r = if r < m then g r else none := by
  induction m generalizing g r with
  | zero => simp
  | succ m ih =>
    rw [List.range_succ_eq_map, List.filterMap_cons]
    cases h0 : g 0 with
    | some a =>
      rw [List.filterMap_map]
      cases r with
      | zero => simp [h0]
      | succ r =>
        have hmono' : ∀ i j, i ≤ j → j < m → ((g ∘ Nat.succ) j).isSome →
            ((g ∘ Nat.succ) i).isSome := by
          intro i j hij hj hs
          exact hmono (i + 1) (j + 1) (by omega) (by omega) hs
        have := ih (g ∘ Nat.succ) hmono' r
        simp only [List.get?_eq_getElem?] at this ⊢
        simp only [List.getElem?_cons_succ]
        rw [this]
        by_cases hr : r < m
        · simp [hr, Function.comp]
        · simp [hr, Function.comp]
    | none =>
      have hall : ∀ j, j < m + 1 → g j = none := by
        intro j hj
        by_contra hne
        have hs : (g j).isSome := Option.ne_none_iff_isSome.mp hne
        have := hmono 0 j (Nat.zero_le j) hj hs
        rw [h0] at this
        simp at this
      have hnil : (List.map Nat.succ (List.range m)).filterMap g = [] := by
        rw [List.filterMap_eq_nil]
        intro a ha
        simp only [List.mem_map, List.mem_range] at ha
        obtain ⟨b, hb, rfl⟩ := ha
        exact hall (b + 1) (by omega)
      rw [hnil]
      by_cases hr : r < m + 1
      · simp [hall r hr]
      · simp [hr]

theorem filterMap_get?_range {α : Type} (l : List α) : ∀ (m : Nat), l.length ≤ m →
    (List.range m).filterMap (fun i => l.get? i) = l := by
  induction l with
  | nil =>
    intro m _
    rw [List.filterMap_eq_nil]
    intro a _
    simp
  | cons a t ih =>
    intro m hm
    cases m with
    | zero => simp at hm
    | succ m =>
      rw [List.range_succ_eq_map, List.filterMap_cons]
      simp only [List.get?_eq_getElem?, List.getElem?_cons_zero]
      rw [List.filterMap_map]
      have : (fun i => (a :: t).get? i) ∘ Nat.succ = fun i => t.get? i := by
        funext i
        simp [List.get?_eq_getElem?]
      congr 1
      rw [show ((fun i => (a :: t)[i]?) ∘ Nat.succ) = fun i => t.get? i from by
        funext i; simp [List.get?_eq_getElem?]]
      exact ih m (by simpa using hm)

theorem range_mul_flatten (cols : Nat) : ∀ (rows : Nat),
    ((List.range rows).map (fun r => (List.range cols).map (fun c => r * cols + c))).flatten
    = List.range (rows * cols) := by
  intro rows
  induction rows with
  | zero => simp
  | succ rows ih =>
    rw [List.range_succ, List.map_append, List.flatten_append, ih]
    simp only [List.map_cons, List.map_nil, List.flatten_cons, List.flatten_nil,
      List.append_nil]
    rw [Nat.succ_mul, List.range_add]

theorem rowread (text : List Char) (cols rows : Nat)
    (hn : text.length ≤ rows * cols) :
    ((List.range rows).map (fun r => (List.range cols).filterMap
        (fun c => text.get? (r * cols + c)))).flatten = text := by
  have hstep : ∀ r, (List.range cols).filterMap (fun c => text.get? (r * cols + c))
      = ((List.range cols).map (fun c => r * cols + c)).filterMap (fun i => text.get? i) := by
    intro r
    rw [List.filterMap_map]
    rfl
  calc ((List.range rows).map (fun r => (List.range cols).filterMap
        (fun c => text.get? (r * cols + c)))).flatten
      = ((List.range rows).map (fun r =>
          ((List.range cols).map (fun c => r * cols + c)).filterMap
            (fun i => text.get? i))).flatten := by
        congr 1
        exact List.map_congr_left (fun r _ => hstep r)
    _ = (((List.range rows).map (fun r =>
          (List.range cols).map (fun c => r * cols + c))).flatten).filterMap
            (fun i => text.get? i) := by
        rw [List.filterMap_flatten, List.map_map]
        rfl
    _ = (List.range (rows * cols)).filterMap (fun i => text.get? i) := by
        rw [range_mul_flatten]
    _ = text := filterMap_get?_range text (rows * cols) hn

theorem ctRows_eq (n cols : Nat) (h0 : 0 < cols) :
    ctRows n cols = n / cols + (if n % cols = 0 then 0 else 1) := by
  have hdm := Nat.div_add_mod n cols
  have hmlt : n % cols < cols := Nat.mod_lt n h0
  by_cases hs : n % cols = 0
  · rw [ctRows, if_pos hs]
    have hn : n = cols * (n / cols) := by omega
    have h1 : n + cols - 1 = (cols - 1) + cols * (n / cols) := by omega
    rw [h1, Nat.add_mul_div_left _ _ h0, Nat.div_eq_of_lt (by omega)]
    omega
  · rw [ctRows, if_neg hs]
    have hmul : cols * (n / cols + 1) = cols * (n / cols) + cols := by ring
    have h1 : n + cols - 1 = (n % cols - 1) + cols * (n / cols + 1) := by omega
    rw [h1, Nat.add_mul_div_left _ _ h0, Nat.div_eq_of_lt (by omega)]
    omega

theorem le_ctRows_mul (n cols : Nat) (h0 : 0 < cols) : n ≤ ctRows n cols * cols := by
  have hdm := Nat.div_add_mod n cols
  have hmlt : n % cols < cols := Nat.mod_lt n h0
  rw [ctRows_eq n cols h0]
  by_cases hs : n % cols = 0
  · rw [if_pos hs]
    have : (n / cols + 0) * cols = cols * (n / cols) := by ring
    omega
  · rw [if_neg hs]
    have : (n / cols + 1) * cols = cols * (n / cols) + cols := by ring
    omega

theorem colLen_iff (n cols c : Nat) (h0 : 0 < cols) (hc : c < cols) (r : Nat) :
    (r * cols + c < n ↔ r < colLen n cols (ctRows n cols) c) := by
  have hdm := Nat.div_add_mod n cols
  have hmlt : n % cols < cols := Nat.mod_lt n h0
  have hrows := ctRows_eq n cols h0
  have hr1 : r * cols = cols * r := by ring
  have hq1 : (n / cols) * cols = cols * (n / cols) := by ring
  by_cases hs : n % cols = 0
  · rw [colLen, if_pos hs, hrows, if_pos hs]
    constructor
    · intro h
      by_contra hcon
      push_neg at hcon
      have : cols * (n / cols + 0) ≤ cols * r := Nat.mul_le_mul_left cols (by omega)
      have h2 : cols * (n / cols + 0) = cols * (n / cols) := by ring
      omega
    · intro h
      have : cols * (r + 1) ≤ cols * (n / cols + 0) := Nat.mul_le_mul_left cols (by omega)
      have h2 : cols * (r + 1) = cols * r + cols := by ring
      have h3 : cols * (n / cols + 0) = cols * (n / cols) := by ring
      omega
  · rw [colLen, if_neg hs, hrows, if_neg hs]
    by_cases hcs : c < n % cols
    · rw [if_pos hcs]
      constructor
      · intro h
        by_contra hcon
        push_neg at hcon
        have : cols * (n / cols + 1) ≤ cols * r := Nat.mul_le_mul_left cols (by omega)
        have h2 : cols * (n / cols + 1) = cols * (n / cols) + cols := by ring
        omega
      · intro h
        have : cols * r ≤ cols * (n / cols) := Nat.mul_le_mul_left cols (by omega)
        omega
    · rw [if_neg hcs]
      constructor
      · intro h
        by_contra hcon
        push_neg at hcon
        have : cols * (n / cols) ≤ cols * r := Nat.mul_le_mul_left cols (by omega)
        omega
      · intro h
        have : cols * (r + 1) ≤ cols * (n / cols + 1 - 1) := Nat.mul_le_mul_left cols (by omega)
        have h2 : cols * (r + 1) = cols * r + cols := by ring
        have h3 : n / cols + 1 - 1 = n / cols := by omega
        rw [h3] at this
        omega

theorem colChars_get? (text : List Char) (cols c : Nat) (h0 : 0 < cols) (hc : c < cols)
    (r : Nat) :
    (colChars text cols (ctRows text.length cols) c).get? r = text.get? (r * cols + c) := by
  set rows := ctRows text.length cols with hrows
  have hmono : ∀ i j, i ≤ j → j < rows →
      ((fun r => text.get? (r * cols + c)) j).isSome →
      ((fun r => text.get? (r * cols + c)) i).isSome := by
    intro i j hij _ hs
    rw [get?_isSome_iff] at hs ⊢
    have : i * cols ≤ j * cols := Nat.mul_le_mul_right cols hij
    omega
  have hchar := filterMap_range_get? rows (fun r => text.get? (r * cols + c)) hmono r
  rw [colChars, hchar]
  rcases Nat.lt_or_ge r rows with h | h
  · rw [if_pos h]
  · rw [if_neg (by omega)]
    have h1 : text.length ≤ rows * cols := le_ctRows_mul text.length cols h0
    have h2 : rows * cols ≤ r * cols := Nat.mul_le_mul_right cols h
    symm
    rw [List.get?_eq_getElem?]
    exact List.getElem?_eq_none (by omega)

theorem colChars_length_eq (text : List Char) (cols c : Nat) (h0 : 0 < cols) (hc : c < cols) :
    (colChars text cols (ctRows text.length cols) c).length
      = colLen text.length cols (ctRows text.length cols) c := by
  set L := colChars text cols (ctRows text.length cols) c with hL
  set cl := colLen text.length cols (ctRows text.length cols) c with hcl
  apply Nat.le_antisymm
  · have h1 : L.get? cl = none := by
      rw [hL, colChars_get? text cols c h0 hc cl, List.get?_eq_getElem?]
      apply List.getElem?_eq_none
      by_contra hcon
      push_neg at hcon
      have := (colLen_iff text.length cols c h0 hc cl).mp hcon
      omega
    rw [List.get?_eq_getElem?] at h1
    rw [List.getElem?_eq_none_iff] at h1
    exact h1
  · rcases Nat.eq_zero_or_pos cl with h | h
    · omega
    · have h1 : (L.get? (cl - 1)).isSome := by
        rw [hL, colChars_get? text cols c h0 hc (cl - 1), get?_isSome_iff]
        exact (colLen_iff text.length cols c h0 hc (cl - 1)).mpr (by omega)
      rw [get?_isSome_iff] at h1
      omega

theorem nodup_perm_of_mem_iff (l1 l2 : List Nat) (h1 : l1.Nodup) (h2 : l2.Nodup)
    (h : ∀ a, a ∈ l1 ↔ a ∈ l2) : l1.Perm l2 := by
  rw [List.perm_iff_count]
  intro a
  by_cases ha : a ∈ l1
  · rw [List.count_eq_one_of_mem h1 ha, List.count_eq_one_of_mem h2 ((h a).mp ha)]
  · rw [List.count_eq_zero.mpr ha, List.count_eq_zero.mpr (fun hc => ha ((h a).mpr hc))]

theorem idx_flatten_perm (cols rows : Nat) (h0 : 0 < cols) :
    (((List.range cols).map (fun c => (List.range rows).map (fun r => r * cols + c))).flatten).Perm
      (List.range (rows * cols)) := by
  apply nodup_perm_of_mem_iff
  · rw [List.nodup_flatten]
    constructor
    · intro l hl
      simp only [List.mem_map] at hl
      obtain ⟨c, _, rfl⟩ := hl
      apply List.Nodup.map _ (List.nodup_range rows)
      intro a b hab
      simp only at hab
      have h1 : a * cols = b * cols := by omega
      exact Nat.eq_of_mul_eq_mul_right h0 h1
    · have hp : List.Pairwise (fun c1 c2 : Nat => c1 < c2 ∧ c2 < cols) (List.range cols) := by
        rw [List.pairwise_iff_getElem]
        intro i j hi hj hij
        simp only [List.getElem_range]
        simp only [List.length_range] at hj
        exact ⟨hij, hj⟩
      refine List.Pairwise.map _ ?_ hp
      intro c1 c2 hcc x hx1 hx2
      obtain ⟨hlt, hc2⟩ := hcc
      simp only [List.mem_map, List.mem_range] at hx1 hx2
      obtain ⟨r1, hr1, he1⟩ := hx1
      obtain ⟨r2, hr2, he2⟩ := hx2
      have hm1 : (r1 * cols + c1) % cols = c1 := by
        rw [show r1 * cols + c1 = c1 + cols * r1 from by ring,
          Nat.add_mul_mod_self_left]
        exact Nat.mod_eq_of_lt (by omega)
      have hm2 : (r2 * cols + c2) % cols = c2 := by
        rw [show r2 * cols + c2 = c2 + cols * r2 from by ring,
          Nat.add_mul_mod_self_left]
        exact Nat.mod_eq_of_lt hc2
      rw [he1] at hm1
      rw [he2] at hm2
      omega
  · exact List.nodup_range _
  · intro a
    constructor
    · intro ha
      rw [List.mem_flatten] at ha
      obtain ⟨l, hl, hal⟩ := ha
      simp only [List.mem_map, List.mem_range] at hl
      obtain ⟨c, hcc, rfl⟩ := hl
      simp only [List.mem_map, List.mem_range] at hal
      obtain ⟨r, hrr, rfl⟩ := hal
      rw [List.mem_range]
      calc r * cols + c < r * cols + cols := by omega
        _ = (r + 1) * cols := by ring
        _ ≤ rows * cols := Nat.mul_le_mul_right cols (by omega)
    · intro ha
      rw [List.mem_range] at ha
      rw [List.mem_flatten]
      refine ⟨(List.range rows).map (fun r => r * cols + (a % cols)), ?_, ?_⟩
      · simp only [List.mem_map, List.mem_range]
        exact ⟨a % cols, Nat.mod_lt a h0, rfl⟩
      · simp only [List.mem_map, List.mem_range]
        refine ⟨a / cols, ?_, ?_⟩
        · rw [Nat.div_lt_iff_lt_mul h0]
          exact ha
        · have := Nat.div_add_mod a cols
          have h1 : (a / cols) * cols = cols * (a / cols) := by ring
          omega

theorem colRead_perm (text : List Char) (cols : Nat) (h0 : 0 < cols) :
    (((List.range cols).map (colChars text cols (ctRows text.length cols))).flatten).Perm
      text := by
  set rows := ctRows text.length cols with hrows
  have h1 : ∀ c, colChars text cols rows c
      = ((List.range rows).map (fun r => r * cols + c)).filterMap
          (fun i => text.get? i) := by
    intro c
    rw [colChars, List.filterMap_map]
    rfl
  have h2 : ((List.range cols).map (colChars text cols rows)).flatten
      = ((((List.range cols).map (fun c => (List.range rows).map
          (fun r => r * cols + c)))).flatten).filterMap (fun i => text.get? i) := by
    rw [List.filterMap_flatten]
    congr 1
    rw [List.map_map]
    exact List.map_congr_left (fun c _ => h1 c)
  rw [h2]
  have h3 := (idx_flatten_perm cols rows h0).filterMap (fun i => text.get? i)
  refine h3.trans ?_
  rw [filterMap_get?_range text (rows * cols) (le_ctRows_mul text.length cols h0)]

theorem keyOrder_perm_range (key : List Char) :
    (keyOrder key).Perm (List.range key.length) :=
  (outerFold_spec key (key.length - 1) le_rfl).2.1

theorem ctEncryptList_perm (text key : List Char) (h0 : 0 < key.length) :
    (ctEncryptList text key).Perm text := by
  rw [ctEncryptList]
  have h1 := (keyOrder_perm_range key).map
    (colChars text key.length (ctRows text.length key.length))
  exact h1.flatten.trans (colRead_perm text key.length h0)

theorem ctEncryptList_length (text key : List Char) (h0 : 0 < key.length) :
    (ctEncryptList text key).length = text.length :=
  (ctEncryptList_perm text key h0).length_eq

theorem splitSegs_flatten : ∀ (L : List (List Char)),
    splitSegs L.flatten (L.map List.length) = L := by
  intro L
  induction L with
  | nil => rfl
  | cons l ls ih =>
    rw [List.flatten_cons, List.map_cons, splitSegs, List.take_left, List.drop_left, ih]

theorem find_zip_map (ord : List Nat) (f : Nat → List Char) (c : Nat) :
    c ∈ ord →
    (((ord.zip (ord.map f)).find? (fun p => p.1 == c)).map Prod.snd).getD []
      = f c := by
  induction ord with
  | nil => intro h; simp at h
  | cons a t ih =>
    intro hc
    rw [List.map_cons, List.zip_cons_cons, List.find?_cons]
    by_cases hac : a = c
    · subst hac
      simp
    · have : ((a, f a).1 == c) = false := by
        simp [hac]
      rw [this]
      exact ih (by rcases List.mem_cons.mp hc with h | h; omega; exact h)

theorem filterMap_congr_mem {α β : Type} (l : List α) (f g : α → Option β)
    (h : ∀ a ∈ l, f a = g a) : l.filterMap f = l.filterMap g := by
  induction l with
  | nil => rfl
  | cons a t ih =>
    rw [List.filterMap_cons, List.filterMap_cons, h a (List.mem_cons_self a t),
      ih (fun x hx => h x (List.mem_cons_of_mem a hx))]

theorem ct_roundtrip_single (text key : List Char) (hk : 0 < key.length) :
    ctDecryptList (ctEncryptList text key) key = text := by
  have hperm := keyOrder_perm_range key
  have hmem : ∀ c ∈ keyOrder key, c < key.length :=
    fun c hc => List.mem_range.mp (hperm.mem_iff.mp hc)
  have hmemr : ∀ c, c < key.length → c ∈ keyOrder key :=
    fun c hc => hperm.mem_iff.mpr (List.mem_range.mpr hc)
  have hylen : (ctEncryptList text key).length = text.length :=
    ctEncryptList_length text key hk
  have hsegs : splitSegs (ctEncryptList text key)
      ((keyOrder key).map
        (colLen text.length key.length (ctRows text.length key.length)))
      = (keyOrder key).map
        (colChars text key.length (ctRows text.length key.length)) := by
    have hlens : (keyOrder key).map
        (colLen text.length key.length (ctRows text.length key.length))
        = ((keyOrder key).map
            (colChars text key.length (ctRows text.length key.length))).map
          List.length := by
      rw [List.map_map]
      exact List.map_congr_left
        (fun c hc => (colChars_length_eq text key.length c hk (hmem c hc)).symm)
    rw [hlens, ctEncryptList]
    exact (splitSegs_flatten _)
  simp only [ctDecryptList, hylen, hsegs]
  have hgrid : ∀ r, (List.range key.length).filterMap
      (fun c => (((((keyOrder key).zip ((keyOrder key).map
          (colChars text key.length (ctRows text.length key.length)))).find?
            (fun p => p.1 == c)).map Prod.snd).getD []).get? r)
      = (List.range key.length).filterMap (fun c => text.get? (r * key.length + c)) := by
    intro r
    apply filterMap_congr_mem
    intro c hc
    have hcc : c < key.length := List.mem_range.mp hc
    rw [find_zip_map (keyOrder key)
      (colChars text key.length (ctRows text.length key.length)) c (hmemr c hcc)]
    exact colChars_get? text key.length c hk hcc r
  have hfin : ((List.range (ctRows text.length key.length)).map
      (fun r => (List.range key.length).filterMap
        (fun c => text.get? (r * key.length + c)))).flatten = text :=
    rowread text key.length (ctRows text.length key.length)
      (le_ctRows_mul text.length key.length hk)
  refine Eq.trans ?_ hfin
  congr 1
  exact List.map_congr_left (fun r _ => hgrid r)

theorem columnarTransposition_enc_eq (x key : List Char) (hk : 0 < key.length)
    (hx : x ≠ []) : columnarTransposition x key true = some (ctEncryptList x key) := by
  have hcond : ¬ (key.length = 0 ∨ x.length = 0) := by
    push_neg
    exact ⟨by omega, by simpa [List.length_eq_zero] using hx⟩
  rw [columnarTransposition, if_neg hcond]
  rfl

theorem columnarTransposition_dec_eq (x key : List Char) (hk : 0 < key.length)
    (hx : x ≠ []) : columnarTransposition x key false = some (ctDecryptList x key) := by
  have hcond : ¬ (key.length = 0 ∨ x.length = 0) := by
    push_neg
    exact ⟨by omega, by simpa [List.length_eq_zero] using hx⟩
  rw [columnarTransposition, if_neg hcond]
  rfl

theorem encPasses_some (key : List Char) (hk : 0 < key.length) :
    ∀ (N : Nat) (x : List Char), x ≠ [] →
      ∃ w, transpositionPasses key true N x = some w ∧ w.length = x.length := by
  intro N
  induction N with
  | zero => intro x hx; exact ⟨x, rfl, rfl⟩
  | succ N ih =>
    intro x hx
    have hE := columnarTransposition_enc_eq x key hk hx
    have hlen : (ctEncryptList x key).length = x.length := ctEncryptList_length x key hk
    have hne : ctEncryptList x key ≠ [] := by
      intro hcon
      rw [hcon] at hlen
      simp only [List.length_nil] at hlen
      exact hx (List.length_eq_zero.mp hlen.symm)
    obtain ⟨w, hw, hwlen⟩ := ih (ctEncryptList x key) hne
    refine ⟨w, ?_, by omega⟩
    simp only [transpositionPasses, hE, Option.some_bind]
    exact hw

theorem pass_comm (key : List Char) : ∀ (N : Nat) (x : List Char),
    transpositionPasses key true (N + 1) x
      = (transpositionPasses key true N x).bind
          (fun y => columnarTransposition y key true) := by
  intro N
  induction N with
  | zero =>
    intro x
    cases hE : columnarTransposition x key true with
    | none => simp [transpositionPasses, hE]
    | some z => simp [transpositionPasses, hE]
  | succ N ih =>
    intro x
    cases hE : columnarTransposition x key true with
    | none =>
      have h1 : transpositionPasses key true (N + 1 + 1) x = none := by
        simp only [transpositionPasses, hE, Option.none_bind]
      have h2 : transpositionPasses key true (N + 1) x = none := by
        simp only [transpositionPasses, hE, Option.none_bind]
      rw [h1, h2]
      rfl
    | some z =>
      have h1 : transpositionPasses key true (N + 1 + 1) x
          = transpositionPasses key true (N + 1) z := by
        simp only [transpositionPasses, hE, Option.some_bind]
      have h2 : transpositionPasses key true (N + 1) x
          = transpositionPasses key true N z := by
        simp only [transpositionPasses, hE, Option.some_bind]
      rw [h1, h2, ih z]

theorem passes_roundtrip (key : List Char) (hk : 0 < key.length) :
    ∀ (N : Nat) (x : List Char), x ≠ [] →
      (transpositionPasses key true N x).bind (transpositionPasses key false N)
        = some x := by
  intro N
  induction N with
  | zero => intro x _; rfl
  | succ N ih =>
    intro x hx
    obtain ⟨w, hw, hwlen⟩ := encPasses_some key hk N x hx
    have hwne : w ≠ [] := by
      intro hcon
      rw [hcon] at hwlen
      simp only [List.length_nil] at hwlen
      exact hx (List.length_eq_zero.mp hwlen.symm)
    rw [pass_comm key N x, hw]
    simp only [Option.some_bind]
    have hE := columnarTransposition_enc_eq w key hk hwne
    have hEne : ctEncryptList w key ≠ [] := by
      have hl := ctEncryptList_length w key hk
      intro hcon
      rw [hcon] at hl
      simp only [List.length_nil] at hl
      exact hwne (List.length_eq_zero.mp hl.symm)
    have hD := columnarTransposition_dec_eq (ctEncryptList w key) key hk hEne
    rw [hE]
    simp only [Option.some_bind]
    rw [show transpositionPasses key false (N + 1) (ctEncryptList w key)
        = (columnarTransposition (ctEncryptList w key) key false).bind
            (transpositionPasses key false N) from rfl]
    rw [hD, ct_roundtrip_single w key hk]
    simp only [Option.some_bind]
    have hIH := ih x hx
    rw [hw] at hIH
    simpa using hIH

/-- C3: for every non-empty letter stream, non-empty transposition key and
pass count N between 1 and 3, N decrypt-direction passes undo N
encrypt-direction passes of columnar_transposition. -/
theorem columnar_transposition_roundtrip (text key : List Char)
    (ht : text ≠ []) (hk : key ≠ []) (N : Nat) (hN1 : 1 ≤ N) (hN3 : N ≤ 3) :
    (transpositionPasses key true N text).bind (transpositionPasses key false N)
      = some text :=
  passes_roundtrip key (List.length_pos.mpr hk) N text ht

theorem columnar_transposition_roundtrip_witness :
    ("hello".toList ≠ ([] : List Char) ∧ "cab".toList ≠ ([] : List Char) ∧ 1 ≤ 2 ∧ 2 ≤ 3)
    ∧ (transpositionPasses "cab".toList true 2 "hello".toList).bind
        (transpositionPasses "cab".toList false 2) = some "hello".toList :=
  ⟨⟨by decide, by decide, by decide, by decide⟩,
   columnar_transposition_roundtrip "hello".toList "cab".toList (by decide) (by decide) 2
     (by decide) (by decide)⟩

theorem findIdx?_some_spec (p : Char → Bool) : ∀ (l : List Char) (i : Nat),
    l.findIdx? p = some i → ∃ a, l.get? i = some a ∧ p a = true := by
  intro l
  induction l with
  | nil => intro i h; simp at h
  | cons x xs ih =>
    intro i h
    rw [List.findIdx?_cons] at h
    by_cases hp : p x = true
    · rw [if_pos hp] at h
      obtain rfl : (0 : Nat) = i := by simpa using h
      exact ⟨x, rfl, hp⟩
    · rw [if_neg hp, List.findIdx?_succ] at h
      cases hfi : xs.findIdx? p with
      | none => rw [hfi] at h; simp at h
      | some j =>
        rw [hfi] at h
        obtain rfl : j + 1 = i := by simpa using h
        obtain ⟨a, ha, hpa⟩ := ih j hfi
        exact ⟨a, ha, hpa⟩

theorem findIdx?_none_of_not_mem (ch : Char) (l : List Char) (h : ch ∉ l) :
    l.findIdx? (fun x => x == ch) = none := by
  rw [List.findIdx?_eq_none_iff]
  intro x hx
  simp only [beq_eq_false_iff_ne, ne_eq]
  intro hxc
  exact h (hxc ▸ hx)

theorem findIdx?_nodup_at (l : List Char) (hnd : l.Nodup) : ∀ (c : Nat) (ch : Char),
    l.get? c = some ch → l.findIdx? (fun x => x == ch) = some c := by
  induction l with
  | nil => intro c ch h; simp at h
  | cons x xs ih =>
    intro c ch h
    rw [List.findIdx?_cons]
    cases c with
    | zero =>
      have : x = ch := by simpa [List.get?_eq_getElem?] using h
      subst this
      simp
    | succ c =>
      have hch : xs.get? c = some ch := by simpa [List.get?_eq_getElem?] using h
      have hmem : ch ∈ xs := by
        rw [List.get?_eq_getElem?] at hch
        exact List.getElem?_mem hch
      have hxch : (x == ch) = false := by
        simp only [List.nodup_cons] at hnd
        simp only [beq_eq_false_iff_ne, ne_eq]
        intro he
        exact hnd.1 (he ▸ hmem)
      rw [if_neg (by simp [hxch]), List.findIdx?_succ,
        ih (by simp only [List.nodup_cons] at hnd; exact hnd.2) c ch hch]
      rfl

theorem rowMajorFind_spec (ch : Char) : ∀ (sq : List (List Char)) (r c : Nat),
    rowMajorFind sq ch = some (r, c) →
    ∃ row, sq.get? r = some row ∧ row.get? c = some ch := by
  intro sq
  induction sq with
  | nil => intro r c h; simp [rowMajorFind] at h
  | cons row rest ih =>
    intro r c h
    rw [rowMajorFind] at h
    cases hf : row.findIdx? (fun x => x == ch) with
    | some c0 =>
      rw [hf] at h
      simp only [Option.some_inj, Prod.mk.injEq] at h
      obtain ⟨h1, h2⟩ := h
      subst h1
      subst h2
      obtain ⟨a, ha, hpa⟩ := findIdx?_some_spec _ row c0 hf
      have : a = ch := by simpa using hpa
      subst this
      exact ⟨row, rfl, ha⟩
    | none =>
      rw [hf] at h
      cases hr : rowMajorFind rest ch with
      | none => rw [hr] at h; simp at h
      | some p =>
        rw [hr] at h
        simp only [Option.map_some', Option.some_inj, Prod.mk.injEq] at h
        obtain ⟨h1, h2⟩ := h
        obtain ⟨row', hrow', hch⟩ := ih p.1 p.2 hr
        refine ⟨row', ?_, h2 ▸ hch⟩
        rw [← h1]
        exact hrow'

theorem rowMajorFind_isSome_of_mem (ch : Char) : ∀ (sq : List (List Char)),
    ch ∈ sq.flatten → (rowMajorFind sq ch).isSome := by
  intro sq
  induction sq with
  | nil => intro h; simp at h
  | cons row rest ih =>
    intro h
    rw [List.flatten_cons, List.mem_append] at h
    rw [rowMajorFind]
    cases hf : row.findIdx? (fun x => x == ch) with
    | some c0 => simp
    | none =>
      rcases h with h | h
      · exfalso
        rw [List.findIdx?_eq_none_iff] at hf
        have := hf ch h
        simp at this
      · have hsome := ih h
        cases hr : rowMajorFind rest ch with
        | none => rw [hr] at hsome; simp at hsome
        | some p => simp [hr]

theorem rowMajorFind_unique (ch : Char) : ∀ (sq : List (List Char)), sq.flatten.Nodup →
    ∀ (r c : Nat) (row : List Char), sq.get? r = some row → row.get? c = some ch →
    rowMajorFind sq ch = some (r, c) := by
  intro sq
  induction sq with
  | nil =>
    intro _ r c row h
    intro _
    simp [List.get?_eq_getElem?] at h
  | cons row0 rest ih =>
    intro hnd r c row hr hc
    rw [List.flatten_cons, List.nodup_append] at hnd
    obtain ⟨hnd0, hndr, hdisj⟩ := hnd
    rw [rowMajorFind]
    cases r with
    | zero =>
      have hrow : row0 = row := by
        simpa [List.get?_eq_getElem?] using hr
      subst hrow
      rw [findIdx?_nodup_at row0 hnd0 c ch hc]
    | succ r' =>
      have hrow : rest.get? r' = some row := by
        simpa [List.get?_eq_getElem?] using hr
      have hchrow : ch ∈ row := by
        rw [List.get?_eq_getElem?] at hc
        exact List.getElem?_mem hc
      have hrowmem : row ∈ rest := by
        rw [List.get?_eq_getElem?] at hrow
        exact List.getElem?_mem hrow
      have hchmem : ch ∈ rest.flatten := List.mem_flatten.mpr ⟨row, hrowmem, hchrow⟩
      have hnotrow0 : ch ∉ row0 := fun hcon => hdisj hcon hchmem
      rw [findIdx?_none_of_not_mem ch row0 hnotrow0,
        ih hndr r' c row hrow hc]
      rfl

theorem vic_getD_mem : ∀ r, r < 6 → vicLetters.getD r 'A' ∈ vicLetters := by decide

theorem vicIndexOf_getD : ∀ r, r < 6 → vicIndexOf (vicLetters.getD r 'A') = some r := by
  decide

theorem rowMajorFind_lt (ch : Char) (sq : List (List Char)) (rc : Nat × Nat)
    (h6 : sq.length = 6) (hrows : ∀ row ∈ sq, row.length = 6)
    (hf : rowMajorFind sq ch = some rc) : rc.1 < 6 ∧ rc.2 < 6 := by
  obtain ⟨row, hr, hc⟩ := rowMajorFind_spec ch sq rc.1 rc.2 hf
  rw [List.get?_eq_getElem?] at hr hc
  obtain ⟨hlt1, hv1⟩ := List.getElem?_eq_some_iff.mp hr
  obtain ⟨hlt2, _⟩ := List.getElem?_eq_some_iff.mp hc
  constructor
  · omega
  · have hmem : row ∈ sq := by
      rw [← hv1]
      exact List.getElem_mem hlt1
    have := hrows row hmem
    omega

theorem subToPolybius_mem (sq : List (List Char)) (h6 : sq.length = 6)
    (hrows : ∀ row ∈ sq, row.length = 6) :
    ∀ (P : List Char), ∀ x ∈ substituteToPolybius P sq, x ∈ vicLetters := by
  intro P
  induction P with
  | nil => intro x hx; simp [substituteToPolybius] at hx
  | cons ch rest ih =>
    intro x hx
    rw [substituteToPolybius] at hx
    cases hf : rowMajorFind sq ch with
    | none =>
      rw [hf] at hx
      exact ih x hx
    | some rc =>
      rw [hf] at hx
      obtain ⟨hr6, hc6⟩ := rowMajorFind_lt ch sq rc h6 hrows hf
      rcases List.mem_cons.mp hx with h | h
      · exact h ▸ vic_getD_mem rc.1 hr6
      · rcases List.mem_cons.mp h with h2 | h2
        · exact h2 ▸ vic_getD_mem rc.2 hc6
        · exact ih x h2

theorem sub_roundtrip (sq : List (List Char)) (h6 : sq.length = 6)
    (hrows : ∀ row ∈ sq, row.length = 6) :
    ∀ (P : List Char), (∀ ch ∈ P, (rowMajorFind sq ch).isSome) →
    substituteFromPolybius (substituteToPolybius P sq) sq = P := by
  intro P
  induction P with
  | nil => intro _; rfl
  | cons ch rest ih =>
    intro hP
    have hs := hP ch (List.mem_cons_self ch rest)
    obtain ⟨rc, hf⟩ := Option.isSome_iff_exists.mp hs
    obtain ⟨hr6, hc6⟩ := rowMajorFind_lt ch sq rc h6 hrows hf
    obtain ⟨row, hr, hc⟩ := rowMajorFind_spec ch sq rc.1 rc.2 hf
    rw [substituteToPolybius, hf, substituteFromPolybius,
      vicIndexOf_getD rc.1 hr6, vicIndexOf_getD rc.2 hc6]
    have hget : getFromSquare sq rc.1 rc.2 = some ch := by
      rw [getFromSquare, hr]
      exact hc
    simp only [hget, ih (fun x hx => hP x (List.mem_cons_of_mem ch hx))]

theorem vic_step_roundtrip : ∀ x ∈ vicLetters,
    (((vicIndexOf x).map (fun i => Char.ofNat (48 + i))).bind (fun c =>
      if isDigitC c ∧ c.toNat - 48 < 6 then some (vicLetters.getD (c.toNat - 48) 'A')
      else none)) = some x := by
  decide

theorem pairs_digits_roundtrip (pairs : List Char) (h : ∀ x ∈ pairs, x ∈ vicLetters) :
    digitsToPairs (pairsToDigits pairs) = pairs := by
  rw [pairsToDigits, digitsToPairs, List.filterMap_filterMap]
  have hcongr := filterMap_congr_mem pairs
    (fun x => ((vicIndexOf x).map (fun i => Char.ofNat (48 + i))).bind (fun c =>
      if isDigitC c ∧ c.toNat - 48 < 6 then some (vicLetters.getD (c.toNat - 48) 'A')
      else none))
    some
    (fun a ha => vic_step_roundtrip a (h a ha))
  rw [hcongr, List.filterMap_some]

theorem digitChar_spec : ∀ i, i < 6 →
    isDigitC (Char.ofNat (48 + i)) = true ∧ (Char.ofNat (48 + i)).toNat = 48 + i := by
  decide

theorem pairsToDigits_digit (pairs : List Char) :
    ∀ d ∈ pairsToDigits pairs, isDigitC d = true ∧ d.toNat - 48 < 6 ∧ 48 ≤ d.toNat := by
  intro d hd
  rw [pairsToDigits] at hd
  obtain ⟨a, _, hfa⟩ := List.mem_filterMap.mp hd
  cases hv : vicIndexOf a with
  | none => rw [hv] at hfa; simp at hfa
  | some i =>
    rw [hv] at hfa
    have hfa2 : Char.ofNat (48 + i) = d := by simpa using hfa
    have hi : i < 6 := by
      obtain ⟨b, hb, _⟩ := findIdx?_some_spec _ vicLetters i hv
      have := (get?_isSome_iff vicLetters i).mp (by rw [hb]; rfl)
      simpa [vicLetters] using this
    obtain ⟨h1, h2⟩ := digitChar_spec i hi
    subst hfa2
    refine ⟨h1, by omega, by omega⟩

theorem char_digit_recover {d : Char} (h48 : 48 ≤ d.toNat) :
    Char.ofNat (48 + (d.toNat - 48)) = d := by
  have : 48 + (d.toNat - 48) = d.toNat := by omega
  rw [this, Char.ofNat_toNat]

theorem letters_digits_roundtrip (r0 r1 r2 : List Char)
    (h0 : r0.length = 10) (h1 : r1.length = 10) (h2 : r2.length = 10)
    (hnd : (([r0, r1, r2] : List (List Char))).flatten.Nodup) :
    ∀ (n : Nat) (D : List Char), D.length ≤ n →
      (∀ d ∈ D, isDigitC d = true ∧ d.toNat - 48 < 6) →
      lettersToDigits (greedyCheckerboardParse [r0, r1, r2] D) [r0, r1, r2] = D := by
  intro n
  induction n with
  | zero =>
    intro D hlen _
    have : D = [] := List.eq_nil_of_length_eq_zero (Nat.le_zero.mp hlen)
    subst this
    rfl
  | succ n ih =>
    intro D hlen hd
    rcases D with _ | ⟨d, _ | ⟨c, rest⟩⟩
    · rfl
    · obtain ⟨hdig, hlt6⟩ := hd d (by simp)
      obtain ⟨h48, _⟩ := isDigitC_toNat hdig
      have hdn : d.toNat - 48 < r0.length := by omega
      have hch : r0.get? (d.toNat - 48) = some (r0.getD (d.toNat - 48) 'A') := by
        rw [List.get?_eq_getElem?, List.getElem?_eq_getElem hdn,
          List.getD_eq_getElem r0 'A' hdn]
      have hfind : rowMajorFind [r0, r1, r2] (r0.getD (d.toNat - 48) 'A')
          = some (0, d.toNat - 48) :=
        rowMajorFind_unique _ [r0, r1, r2] hnd 0 (d.toNat - 48) r0 rfl hch
      have hg : greedyCheckerboardParse [r0, r1, r2] [d]
          = [r0.getD (d.toNat - 48) 'A'] := rfl
      rw [hg, lettersToDigits]
      simp only [hfind]
      rw [char_digit_recover h48]
      rfl
    · obtain ⟨hdig, hlt6⟩ := hd d (by simp)
      obtain ⟨h48, _⟩ := isDigitC_toNat hdig
      obtain ⟨hdigc, hltc6⟩ := hd c (by simp)
      obtain ⟨h48c, _⟩ := isDigitC_toNat hdigc
      have hrest : ∀ x ∈ rest, isDigitC x = true ∧ x.toNat - 48 < 6 := by
        intro x hx
        exact hd x (by simp [hx])
      have hlen' : rest.length ≤ n := by
        simp only [List.length_cons] at hlen
        omega
      have hlenc : (c :: rest).length ≤ n := by
        simp only [List.length_cons] at hlen ⊢
        omega
      by_cases h12 : d = '1' ∨ d = '2'
      · rcases h12 with h | h <;> subst h
        · have hcn : c.toNat - 48 < r1.length := by omega
          have hch : r1.get? (c.toNat - 48) = some (r1.getD (c.toNat - 48) 'A') := by
            rw [List.get?_eq_getElem?, List.getElem?_eq_getElem hcn,
              List.getD_eq_getElem r1 'A' hcn]
          have hfind : rowMajorFind [r0, r1, r2] (r1.getD (c.toNat - 48) 'A')
              = some (1, c.toNat - 48) :=
            rowMajorFind_unique _ [r0, r1, r2] hnd 1 (c.toNat - 48) r1 rfl hch
          have hg : greedyCheckerboardParse [r0, r1, r2] ('1' :: c :: rest)
              = r1.getD (c.toNat - 48) 'A' ::
                greedyCheckerboardParse [r0, r1, r2] rest := rfl
          rw [hg, lettersToDigits]
          simp only [hfind]
          rw [char_digit_recover h48c, ih rest hlen' hrest]
        · have hcn : c.toNat - 48 < r2.length := by omega
          have hch : r2.get? (c.toNat - 48) = some (r2.getD (c.toNat - 48) 'A') := by
            rw [List.get?_eq_getElem?, List.getElem?_eq_getElem hcn,
              List.getD_eq_getElem r2 'A' hcn]
          have hfind : rowMajorFind [r0, r1, r2] (r2.getD (c.toNat - 48) 'A')
              = some (2, c.toNat - 48) :=
            rowMajorFind_unique _ [r0, r1, r2] hnd 2 (c.toNat - 48) r2 rfl hch
          have hg : greedyCheckerboardParse [r0, r1, r2] ('2' :: c :: rest)
              = r2.getD (c.toNat - 48) 'A' ::
                greedyCheckerboardParse [r0, r1, r2] rest := rfl
          rw [hg, lettersToDigits]
          simp only [hfind]
          rw [char_digit_recover h48c, ih rest hlen' hrest]
      · have hdn : d.toNat - 48 < r0.length := by omega
        have hch : r0.get? (d.toNat - 48) = some (r0.getD (d.toNat - 48) 'A') := by
          rw [List.get?_eq_getElem?, List.getElem?_eq_getElem hdn,
            List.getD_eq_getElem r0 'A' hdn]
        have hfind : rowMajorFind [r0, r1, r2] (r0.getD (d.toNat - 48) 'A')
            = some (0, d.toNat - 48) :=
          rowMajorFind_unique _ [r0, r1, r2] hnd 0 (d.toNat - 48) r0 rfl hch
        rw [greedyCheckerboardParse, if_neg h12]
        have hfind' : rowMajorFind [r0, r1, r2]
            ((([r0, r1, r2] : List (List Char)).getD 0 []).getD (d.toNat - 48) 'A')
            = some (0, d.toNat - 48) := hfind
        rw [lettersToDigits]
        simp only [hfind']
        rw [char_digit_recover h48,
          ih (c :: rest) hlenc (fun x hx => hd x (List.mem_cons_of_mem d hx))]

theorem mem_firstDedup (x : Char) : ∀ (l : List Char), x ∈ firstDedup l ↔ x ∈ l := by
  intro l
  induction l with
  | nil => simp [firstDedup]
  | cons c rest ih =>
    rw [firstDedup, List.mem_cons, List.mem_cons]
    constructor
    · rintro (h | h)
      · exact Or.inl h
      · exact Or.inr (ih.mp (List.mem_of_mem_filter h))
    · rintro (h | h)
      · exact Or.inl h
      · by_cases hx : x = c
        · exact Or.inl hx
        · refine Or.inr (List.mem_filter.mpr ⟨ih.mpr h, by simpa using hx⟩)

theorem nodup_firstDedup : ∀ (l : List Char), (firstDedup l).Nodup := by
  intro l
  induction l with
  | nil => simp [firstDedup]
  | cons c rest ih =>
    rw [firstDedup]
    refine List.Nodup.cons ?_ (List.Nodup.filter _ ih)
    intro hc
    have := (List.mem_filter.mp hc).2
    simp at this

theorem nodup_length_le (u v : List Char) (hu : u.Nodup) (hv : v.Nodup)
    (hsub : ∀ x ∈ u, x ∈ v) : u.length ≤ v.length := by
  rw [← List.toFinset_card_of_nodup hu, ← List.toFinset_card_of_nodup hv]
  exact Finset.card_le_card (fun x hx => List.mem_toFinset.mpr (hsub x (List.mem_toFinset.mp hx)))

theorem nodup_perm_chars (l1 l2 : List Char) (h1 : l1.Nodup) (h2 : l2.Nodup)
    (hmem : ∀ x, x ∈ l1 ↔ x ∈ l2) : l1.Perm l2 := by
  rw [List.perm_iff_count]
  intro a
  by_cases ha : a ∈ l1
  · rw [List.count_eq_one_of_mem h1 ha, List.count_eq_one_of_mem h2 ((hmem a).mp ha)]
  · rw [List.count_eq_zero_of_not_mem ha,
      List.count_eq_zero_of_not_mem (fun hc => ha ((hmem a).mpr hc))]

theorem mergedAlphabet_take (kw alph : List Char) (cap : Nat) :
    mergedAlphabet kw alph cap =
      (firstDedup (((kw.map toLowerC).filter (fun c => decide (c ∈ alph))) ++ alph)).take cap := by
  have hcap1 := foldl_cap_take (fun st c => c ∈ alph ∧ c ∉ st) cap (kw.map toLowerC) []
  have hcap2 := fun u => foldl_cap_take (fun st c => c ∉ st) cap alph u
  have huncap1 := phase1_filter alph (kw.map toLowerC) []
  simp only [List.take_nil] at hcap1
  set kwF := (kw.map toLowerC).filter (fun c => decide (c ∈ alph)) with hkwF
  have hFD := foldl_addUnseen_eq (kwF ++ alph) []
  calc mergedAlphabet kw alph cap
      = alph.foldl (addAlphabetChar cap) (kw.foldl (addKeywordChar alph cap) []) := rfl
    _ = alph.foldl (addAlphabetChar cap)
        ((((kw.map toLowerC).foldl
          (fun st c => if c ∈ alph ∧ c ∉ st then st ++ [c] else st) []).take cap)) := by
        rw [show kw.foldl (addKeywordChar alph cap) []
            = (kw.map toLowerC).foldl
              (fun st c => if st.length < cap ∧ (c ∈ alph ∧ c ∉ st) then st ++ [c] else st) []
          from by rw [List.foldl_map]; rfl]
        rw [hcap1]
    _ = ((alph.foldl (fun st c => if c ∉ st then st ++ [c] else st)
          ((kw.map toLowerC).foldl
            (fun st c => if c ∈ alph ∧ c ∉ st then st ++ [c] else st) [])).take cap) := by
        exact hcap2 _
    _ = ((kwF ++ alph).foldl (fun st c => if c ∉ st then st ++ [c] else st) []).take cap := by
        rw [huncap1, ← List.foldl_append]
    _ = (firstDedup (kwF ++ alph)).take cap := by rw [hFD]; simp

theorem merged_firstDedup_perm (kw alph : List Char) (hnd : alph.Nodup) :
    (firstDedup (((kw.map toLowerC).filter (fun c => decide (c ∈ alph))) ++ alph)).Perm alph := by
  set kwF := (kw.map toLowerC).filter (fun c => decide (c ∈ alph)) with hkwF
  refine nodup_perm_chars _ alph (nodup_firstDedup _) hnd ?_
  intro x
  rw [mem_firstDedup, List.mem_append]
  constructor
  · rintro (h | h)
    · have := (List.mem_filter.mp h).2
      simpa using this
    · exact h
  · exact fun h => Or.inr h

theorem mergedAlphabet_full (kw alph : List Char) (hnd : alph.Nodup) (cap : Nat)
    (hcap : cap ≤ alph.length) :
    (mergedAlphabet kw alph cap).length = cap
    ∧ (mergedAlphabet kw alph cap).Nodup
    ∧ (mergedAlphabet kw alph cap).Sublist
        (firstDedup (((kw.map toLowerC).filter (fun c => decide (c ∈ alph))) ++ alph)) := by
  have hperm := merged_firstDedup_perm kw alph hnd
  have hlenF := hperm.length_eq
  rw [mergedAlphabet_take]
  refine ⟨?_, ?_, List.take_sublist _ _⟩
  · rw [List.length_take, hlenF]
    omega
  · exact List.Nodup.sublist (List.take_sublist _ _) (nodup_firstDedup _)

theorem mergedAlphabet_eq_perm (kw alph : List Char) (hnd : alph.Nodup)
    (hcap : alph.length = 36) :
    (mergedAlphabet kw alph 36).Perm alph := by
  have hperm := merged_firstDedup_perm kw alph hnd
  have hlenF := hperm.length_eq
  rw [mergedAlphabet_take, hcap] at *
  rw [List.take_of_length_le (by omega)]
  exact hperm

theorem chunkRows_flatten (l : List Char) (w : Nat) :
    ∀ rows : Nat, (chunkRows l w rows).flatten = l.take (rows * w) := by
  intro rows
  induction rows with
  | zero => simp [chunkRows]
  | succ r ih =>
    rw [chunkRows, List.range_succ, List.map_append, List.flatten_append]
    rw [show (List.range r).map (fun r => (l.drop (r * w)).take w) = chunkRows l w r from rfl, ih]
    simp only [List.map_cons, List.map_nil, List.flatten_cons, List.flatten_nil, List.append_nil]
    rw [← List.take_add]
    congr 1
    ring

theorem chunkRows_length (l : List Char) (w rows : Nat) :
    (chunkRows l w rows).length = rows := by
  simp [chunkRows]

theorem chunkRows_row_length (l : List Char) (w rows : Nat) (hlen : rows * w ≤ l.length) :
    ∀ row ∈ chunkRows l w rows, row.length = w := by
  intro row hrow
  rw [chunkRows, List.mem_map] at hrow
  obtain ⟨r, hr, hrow⟩ := hrow
  rw [List.mem_range] at hr
  subst hrow
  rw [List.length_take, List.length_drop]
  have : (r + 1) * w ≤ rows * w := Nat.mul_le_mul_right w hr
  have : r * w + w ≤ rows * w := by
    calc r * w + w = (r + 1) * w := by ring
    _ ≤ rows * w := this
  omega

theorem numericGo_roundtrip (key alph : List Char) (hnd : alph.Nodup)
    (hk0 : ¬ key.length = 0) (hkd : ∀ k ∈ key, isDigitC k = true)
    (h10 : 10 ≤ alph.length) :
    ∀ (text : List Char) (i : Nat),
      ∃ ct, numericAdditionGo key alph true text i = some ct ∧
        numericAdditionGo key alph false ct i = some text := by
  intro text
  induction text with
  | nil => exact fun i => ⟨[], rfl, rfl⟩
  | cons c rest ih =>
    intro i
    obtain ⟨ct, hct, hdec⟩ := ih (i + 1)
    by_cases hc : c ∈ alph
    · have hkmem : key.getD (i % key.length) '0' ∈ key := by
        have hlt : i % key.length < key.length := Nat.mod_lt _ (by omega)
        rw [List.getD_eq_getElem key '0' hlt]
        exact List.getElem_mem hlt
      obtain ⟨h48, h57⟩ := isDigitC_toNat (hkd _ hkmem)
      have hidx : alph.indexOf c < alph.length := List.indexOf_lt_length.mpr hc
      have hkc : key.getD (i % key.length) '0' = key.getD (i % key.length) '0' := rfl
      have hEemod : (((alph.indexOf c : Nat) : Int) +
            (((key.getD (i % key.length) '0').toNat : Int) - 48)).tmod ((alph.length : Nat) : Int)
          = (((alph.indexOf c : Nat) : Int) +
            (((key.getD (i % key.length) '0').toNat : Int) - 48)) % ((alph.length : Nat) : Int) :=
        Int.tmod_eq_emod (by omega) (by omega)
      have hE0 : 0 ≤ (((alph.indexOf c : Nat) : Int) +
            (((key.getD (i % key.length) '0').toNat : Int) - 48)).tmod
              ((alph.length : Nat) : Int) := by
        rw [hEemod]
        exact Int.emod_nonneg _ (by omega)
      have hElt : (((alph.indexOf c : Nat) : Int) +
            (((key.getD (i % key.length) '0').toNat : Int) - 48)).tmod ((alph.length : Nat) : Int)
          < ((alph.length : Nat) : Int) := by
        rw [hEemod]
        exact Int.emod_lt_of_pos _ (by omega)
      have hEnat : ((((alph.indexOf c : Nat) : Int) +
            (((key.getD (i % key.length) '0').toNat : Int) - 48)).tmod
              ((alph.length : Nat) : Int)).toNat < alph.length := by omega
      have hchmem : alph.getD ((((alph.indexOf c : Nat) : Int) +
            (((key.getD (i % key.length) '0').toNat : Int) - 48)).tmod
              ((alph.length : Nat) : Int)).toNat 'A' ∈ alph := by
        rw [List.getD_eq_getElem alph 'A' hEnat]
        exact List.getElem_mem hEnat
      have hchidx : alph.indexOf (alph.getD ((((alph.indexOf c : Nat) : Int) +
            (((key.getD (i % key.length) '0').toNat : Int) - 48)).tmod
              ((alph.length : Nat) : Int)).toNat 'A')
          = ((((alph.indexOf c : Nat) : Int) +
            (((key.getD (i % key.length) '0').toNat : Int) - 48)).tmod
              ((alph.length : Nat) : Int)).toNat := by
        rw [List.getD_eq_getElem alph 'A' hEnat]
        exact List.indexOf_getElem hnd _ hEnat
      have hD : (((alph.indexOf (alph.getD ((((alph.indexOf c : Nat) : Int) +
              (((key.getD (i % key.length) '0').toNat : Int) - 48)).tmod
                ((alph.length : Nat) : Int)).toNat 'A') : Nat) : Int) -
            (((key.getD (i % key.length) '0').toNat : Int) - 48) +
            ((alph.length : Nat) : Int)).tmod ((alph.length : Nat) : Int)
          = ((alph.indexOf c : Nat) : Int) := by
        rw [hchidx, Int.toNat_of_nonneg hE0]
        rw [Int.tmod_eq_emod (by omega) (by omega)]
        rw [hEemod]
        have hsplit : (((alph.indexOf c : Nat) : Int) +
              (((key.getD (i % key.length) '0').toNat : Int) - 48)) % ((alph.length : Nat) : Int) -
              (((key.getD (i % key.length) '0').toNat : Int) - 48) + ((alph.length : Nat) : Int)
            = ((alph.indexOf c : Nat) : Int) + ((alph.length : Nat) : Int) *
              (1 - (((alph.indexOf c : Nat) : Int) +
                (((key.getD (i % key.length) '0').toNat : Int) - 48)) /
                  ((alph.length : Nat) : Int)) := by
          rw [Int.emod_def]
          ring
        rw [hsplit, Int.add_mul_emod_self_left]
        exact Int.emod_eq_of_lt (by omega) (by omega)
      have hout : alph.getD (((alph.indexOf c : Nat) : Int)).toNat 'A' = c := by
        have : (((alph.indexOf c : Nat) : Int)).toNat = alph.indexOf c := by omega
        rw [this, List.getD_eq_getElem alph 'A' hidx]
        exact List.getElem_indexOf hidx
      refine ⟨alph.getD ((((alph.indexOf c : Nat) : Int) +
          (((key.getD (i % key.length) '0').toNat : Int) - 48)).tmod
            ((alph.length : Nat) : Int)).toNat 'A' :: ct, ?_, ?_⟩
      · rw [numericAdditionGo]
        dsimp only
        rw [if_pos hc, if_neg hk0, if_pos rfl, if_neg (not_lt.mpr hE0), hct]
        rfl
      · rw [numericAdditionGo]
        dsimp only
        rw [if_pos hchmem, if_neg hk0, if_neg (show ¬ (false = true) by decide), hD,
          if_neg (not_lt.mpr (Int.natCast_nonneg _)), hdec, hout]
        rfl
    · refine ⟨c :: ct, ?_, ?_⟩
      · rw [numericAdditionGo]
        dsimp only
        rw [if_neg hc, hct]
        rfl
      · rw [numericAdditionGo]
        dsimp only
        rw [if_neg hc, hdec]
        rfl

theorem vicIndexOf_isSome : ∀ a ∈ vicLetters, (vicIndexOf a).isSome := by decide

theorem substituteToPolybius_ne_nil (sq : List (List Char)) (P : List Char) (hP : P ≠ [])
    (hfound : ∀ ch ∈ P, (rowMajorFind sq ch).isSome) : substituteToPolybius P sq ≠ [] := by
  rcases P with _ | ⟨c, rest⟩
  · exact absurd rfl hP
  · obtain ⟨rc, hrc⟩ := Option.isSome_iff_exists.mp (hfound c (List.mem_cons_self c rest))
    rw [substituteToPolybius, hrc]
    simp

theorem pairsToDigits_ne_nil (pairs : List Char) (hne : pairs ≠ [])
    (hv : ∀ x ∈ pairs, x ∈ vicLetters) : pairsToDigits pairs ≠ [] := by
  rcases pairs with _ | ⟨a, rest⟩
  · exact absurd rfl hne
  · rw [pairsToDigits, List.filterMap_cons]
    obtain ⟨i, hi⟩ := Option.isSome_iff_exists.mp
      (vicIndexOf_isSome a (hv a (List.mem_cons_self a rest)))
    rw [hi]
    simp

theorem greedy_ne_nil (board : List (List Char)) (D : List Char) (hne : D ≠ []) :
    greedyCheckerboardParse board D ≠ [] := by
  rcases D with _ | ⟨d, _ | ⟨c, rest⟩⟩
  · exact absurd rfl hne
  · simp [greedyCheckerboardParse]
  · rw [greedyCheckerboardParse]
    by_cases h : d = '1' ∨ d = '2'
    · rw [if_pos h]
      simp
    · rw [if_neg h]
      simp

/-- C1 (amended): in static numeric-key mode (use_chain_addition false) the
pipeline round-trips: for a duplicate-free 36-character chosen alphabet
(uniqueness is the spec's own Alphabet invariant), a square type "standard"
or "keyword", a non-empty plaintext drawn from the alphabet, any keywords,
a non-empty transposition key and a non-empty all-digit numeric key,
vic_decrypt returns the original plaintext for every pass count. Every
restriction relative to the original claim is forced by the counterexample
theorem: chain mode, the caesar/atbash/affine square types, alphabets
longer than 36 characters and the empty plaintext all fail to round-trip. -/
theorem vic_static_roundtrip (P pbKey cbKey trKey numKey : List Char)
    (squareType : String) (alphabet : Option (List Char)) (language : String)
    (mp : MonoParams) (passes : Nat)
    (hsq : squareType = "standard" ∨ squareType = "keyword")
    (hnd : (chooseAlphabet alphabet language).Nodup)
    (h36 : (chooseAlphabet alphabet language).length = 36)
    (hPne : P ≠ []) (hPmem : ∀ ch ∈ P, ch ∈ chooseAlphabet alphabet language)
    (htr : trKey ≠ [])
    (hnK : numKey ≠ []) (hnKd : ∀ k ∈ numKey, isDigitC k = true) :
    (vicEncrypt P pbKey cbKey trKey numKey squareType alphabet language mp passes false).bind
      (fun ct => vicDecrypt ct pbKey cbKey trKey numKey squareType alphabet language mp
        passes false) = some P := by
  set ua := chooseAlphabet alphabet language with hua
  obtain ⟨L, hsqeq, hL36, hLmem⟩ :
      ∃ L, vicProducePolybiusSquare squareType (some pbKey) alphabet mp language
        = some (chunkRows L 6 6) ∧ L.length = 36 ∧ ∀ x ∈ ua, x ∈ L := by
    rcases hsq with h | h <;> subst h
    · refine ⟨ua, ?_, h36, fun x hx => hx⟩
      rw [vicProducePolybiusSquare, ← hua]
      rw [if_neg (by omega : ¬ ua.length < 36), if_pos rfl]
      rw [createStandardPolybiusSquare, if_neg (by omega : ¬ ua.length < 36)]
    · have hperm := mergedAlphabet_eq_perm pbKey ua hnd h36
      refine ⟨mergedAlphabet pbKey ua 36, ?_, by rw [hperm.length_eq, h36],
        fun x hx => hperm.mem_iff.mpr hx⟩
      rw [vicProducePolybiusSquare, ← hua]
      rw [if_neg (by omega : ¬ ua.length < 36), if_neg (by decide), if_neg (by decide),
        if_pos rfl]
      rw [createKeywordPolybiusSquare, if_neg (by omega : ¬ ua.length < 36)]
      rfl
  set SQ := chunkRows L 6 6 with hSQdef
  have h6 : SQ.length = 6 := chunkRows_length L 6 6
  have hrows6 : ∀ row ∈ SQ, row.length = 6 := chunkRows_row_length L 6 6 (by omega)
  have hflatSQ : SQ.flatten = L := by
    rw [hSQdef, chunkRows_flatten]
    exact List.take_of_length_le (by omega)
  have hfound : ∀ ch ∈ P, (rowMajorFind SQ ch).isSome := fun ch hch =>
    rowMajorFind_isSome_of_mem ch SQ (by rw [hflatSQ]; exact hLmem ch (hPmem ch hch))
  set pairs := substituteToPolybius P SQ with hpairsdef
  have hpairsV : ∀ x ∈ pairs, x ∈ vicLetters := subToPolybius_mem SQ h6 hrows6 P
  have hpairs_ne : pairs ≠ [] := substituteToPolybius_ne_nil SQ P hPne hfound
  set digits := pairsToDigits pairs with hdigitsdef
  have hdigprop := pairsToDigits_digit pairs
  have hdig_ne : digits ≠ [] := pairsToDigits_ne_nil pairs hpairs_ne hpairsV
  have hM := mergedAlphabet_full cbKey ua hnd 30 (by omega)
  set M30 := mergedAlphabet cbKey ua 30 with hM30def
  obtain ⟨hM30len, hM30nd, -⟩ := hM
  set CB := chunkRows M30 10 3 with hCBdef
  have hcb : vicProduceCheckerboard cbKey alphabet language = some CB := by
    rw [vicProduceCheckerboard, createStraddlingCheckerboard, ← hua,
      if_neg (by omega : ¬ ua.length < 30), ← hM30def, ← hCBdef]
  have hcb3 : CB.length = 3 := chunkRows_length M30 10 3
  have hrows10 : ∀ row ∈ CB, row.length = 10 := chunkRows_row_length M30 10 3 (by omega)
  have hflatCB : CB.flatten = M30 := by
    rw [hCBdef, chunkRows_flatten]
    exact List.take_of_length_le (by omega)
  have hndCB : CB.flatten.Nodup := by rw [hflatCB]; exact hM30nd
  obtain ⟨r0, r1, r2, hCB⟩ := List.length_eq_three.mp hcb3
  have h_r0 : r0.length = 10 := hrows10 r0 (by rw [hCB]; simp)
  have h_r1 : r1.length = 10 := hrows10 r1 (by rw [hCB]; simp)
  have h_r2 : r2.length = 10 := hrows10 r2 (by rw [hCB]; simp)
  set letters := digitsToLetters digits CB with hlettersdef
  have hgreedy : letters = greedyCheckerboardParse CB digits := by
    rw [hlettersdef, hCB]
    exact digitsToLettersGo_eq_greedy r0 r1 r2 h_r0 h_r1 h_r2 digits.length digits le_rfl
      (fun d hd => (hdigprop d hd).1)
  have hlet_ne : letters ≠ [] := by
    rw [hgreedy]
    exact greedy_ne_nil CB digits hdig_ne
  have hback : lettersToDigits letters CB = digits := by
    rw [hgreedy, hCB]
    exact letters_digits_roundtrip r0 r1 r2 h_r0 h_r1 h_r2 (by rw [← hCB]; exact hndCB)
      digits.length digits le_rfl
      (fun d hd => ⟨(hdigprop d hd).1, (hdigprop d hd).2.1⟩)
  have hkpos : 0 < trKey.length := List.length_pos.mpr htr
  obtain ⟨T, hT, -⟩ := encPasses_some trKey hkpos passes letters hlet_ne
  have hTdec : transpositionPasses trKey false passes T = some letters := by
    have h := passes_roundtrip trKey hkpos passes letters hlet_ne
    rw [hT] at h
    simpa using h
  obtain ⟨CT, hCT, hCTdec⟩ := numericGo_roundtrip numKey ua hnd
    (fun h => hnK (List.length_eq_zero.mp h)) hnKd (by omega) T 0
  have hCT' : numericAddition T numKey ua true = some CT := hCT
  have hCTdec' : numericAddition CT numKey ua false = some T := hCTdec
  have hpd : digitsToPairs digits = pairs := by
    rw [hdigitsdef]
    exact pairs_digits_roundtrip pairs hpairsV
  have hsub : substituteFromPolybius pairs SQ = P := by
    rw [hpairsdef]
    exact sub_roundtrip SQ h6 hrows6 P hfound
  have hENC : vicEncrypt P pbKey cbKey trKey numKey squareType alphabet language mp passes false
      = some CT := by
    simp only [vicEncrypt]
    rw [← hua, hsqeq]
    simp only [Option.some_bind]
    rw [hcb]
    simp only [Option.some_bind]
    rw [← hpairsdef, ← hdigitsdef, ← hlettersdef, hT]
    simp only [Option.some_bind]
    rw [if_neg (by decide : ¬ (false = true))]
    exact hCT'
  have hDEC : vicDecrypt CT pbKey cbKey trKey numKey squareType alphabet language mp passes false
      = some P := by
    simp only [vicDecrypt]
    rw [← hua, if_neg (by decide : ¬ (false = true)), hCTdec']
    simp only [Option.some_bind]
    rw [hTdec]
    simp only [Option.some_bind]
    rw [hcb]
    simp only [Option.some_bind]
    rw [hback, hpd, hsqeq]
    simp only [Option.map_some']
    rw [hsub]
  rw [hENC]
  simp only [Option.some_bind]
  exact hDEC

theorem vic_static_roundtrip_witness :
    (("standard" = "standard" ∨ "standard" = "keyword")
      ∧ (chooseAlphabet none "english").Nodup
      ∧ (chooseAlphabet none "english").length = 36
      ∧ "HELLO".toList ≠ ([] : List Char)
      ∧ (∀ ch ∈ "HELLO".toList, ch ∈ chooseAlphabet none "english")
      ∧ "CAB".toList ≠ ([] : List Char)
      ∧ "31415".toList ≠ ([] : List Char)
      ∧ (∀ k ∈ "31415".toList, isDigitC k = true))
    ∧ (vicEncrypt "HELLO".toList "SECRET".toList "KEY".toList "CAB".toList "31415".toList
        "standard" none "english" defaultMonoParams 1 false).bind
      (fun ct => vicDecrypt ct "SECRET".toList "KEY".toList "CAB".toList "31415".toList
        "standard" none "english" defaultMonoParams 1 false) = some "HELLO".toList :=
  ⟨⟨Or.inl rfl, by decide, by decide, by decide, by decide, by decide, by decide, by decide⟩,
   vic_static_roundtrip "HELLO".toList "SECRET".toList "KEY".toList "CAB".toList "31415".toList
     "standard" none "english" defaultMonoParams 1 (Or.inl rfl) (by decide) (by decide)
     (by decide) (by decide) (by decide) (by decide) (by decide)⟩
